import Mathlib

/-!
Verification of the claim-algebra core of the agora library
(`src/agora/_asset.py`): the `Asset` variant set, the `simplify` reduction,
the `lower_bound`/`upper_bound` computation and the `asset_to_str` /
`str_to_asset` codec, shallowly embedded in Lean.  Python's `Fraction` is
`ℚ` (both are exact rationals stored in lowest terms with positive
denominator); Python dictionaries and sets are modelled as functions into
`Option` and as lists with membership semantics.
-/

namespace Agora

/-- Resolution fact carried by a snapshot entry: the time the target resolved
together with the optional resolver identity (`Tuple[Fraction, Optional[str]]`). -/
abbrev Resolution : Type := ℚ × Option String

/-- Python type `TargetSuccess = Dict[str, Optional[Tuple[Fraction, Optional[str]]]]`.
The outer `Option` models presence of the key in the dictionary (`none` = the target
id is not a key), the inner one the `Optional` value (`some none` = key present but
target unresolved). -/
abbrev TargetSuccess : Type := String → Option (Option Resolution)

/-- Asset variant set from `_asset.py`: one constructor per concrete subclass of the
Python abstract base class `Asset`, with the same fields in the same order. -/
inductive Asset : Type where
  | constant (c : ℚ)
  | satisfiedBy (target : String) (stop_time : ℚ)
  | agentsSatisfyBy (target : String) (agent_ids : List String) (stop_time : ℚ)
  | timeRemaining (target : String) (stop_time : ℚ)
  | max (assets : List Asset)
  | min (assets : List Asset)
  | linearCombination (terms : List (ℚ × Asset))
  | priceySatisfiedBy (target : String) (stop_time : ℚ) (price : ℚ)
  | priceyTimeRemaining (target : String) (break_even_time : ℚ) (stop_time : ℚ)
      (max_loss : ℚ)

/-- Python `max` over a list of rationals: defined only on non-empty lists
(`max([])` raises `ValueError`, modelled by `none`). -/
def pyMax : List ℚ → Option ℚ
  | [] => none
  | x :: xs => some (xs.foldl Max.max x)

/-- Python `min` over a list of rationals: defined only on non-empty lists
(`min([])` raises `ValueError`, modelled by `none`). -/
def pyMin : List ℚ → Option ℚ
  | [] => none
  | x :: xs => some (xs.foldl Min.min x)

/-- Python `sum(l, Fraction(0))`: left fold of addition starting at 0. -/
def pySum (l : List ℚ) : ℚ := l.foldl (· + ·) 0

mutual

/-- Method `referenced_target_ids` of each subclass.  The Python `Set[str]` result is
modelled as a list whose membership relation is the set: leaves contribute their
single target, composites the union (concatenation) over children/terms. -/
def Asset.referenced_target_ids : Asset → List String
  | .constant _ => []
  | .satisfiedBy target _ => [target]
  | .agentsSatisfyBy target _ _ => [target]
  | .timeRemaining target _ => [target]
  | .max assets => referencedList assets
  | .min assets => referencedList assets
  | .linearCombination terms => referencedTerms terms
  | .priceySatisfiedBy target _ _ => [target]
  | .priceyTimeRemaining target _ _ _ => [target]
termination_by structural a => a

/-- Union of `referenced_target_ids` over a list of assets (`MaxAsset`/`MinAsset`). -/
def referencedList : List Asset → List String
  | [] => []
  | a :: rest => a.referenced_target_ids ++ referencedList rest
termination_by structural l => l

/-- Union of `referenced_target_ids` over the terms of a `LinearCombinationAsset`. -/
def referencedTerms : List (ℚ × Asset) → List String
  | [] => []
  | p :: rest => p.2.referenced_target_ids ++ referencedTerms rest
termination_by structural l => l

end

/-- Guard `referenced_target_ids().issubset(target_success.keys())` asserted at the
top of every `simplify` implementation. -/
def precondOK (a : Asset) (ts : TargetSuccess) : Bool :=
  a.referenced_target_ids.all fun t => (ts t).isSome

/-- Python membership test `author in self.agent_ids` where `author` is
`Optional[str]`: `None` is never an element of a list of strings. -/
def authorIn (author : Option String) (agent_ids : List String) : Bool :=
  match author with
  | some a => agent_ids.contains a
  | none => false

/-- Values of a list of assets when all of them are `ConstantAsset`s, `none`
otherwise; models the `all(isinstance(a, ConstantAsset) ...)` test followed by the
extraction of `.constant` from each element. -/
def allConstants : List Asset → Option (List ℚ)
  | [] => some []
  | .constant c :: rest => (allConstants rest).map (c :: ·)
  | _ => none

/-- Per-term products `coefficient * generator.constant` when every generator in a
`LinearCombinationAsset` term list is a `ConstantAsset`, `none` otherwise. -/
def termConstants : List (ℚ × Asset) → Option (List ℚ)
  | [] => some []
  | (c, .constant q) :: rest => (termConstants rest).map (c * q :: ·)
  | _ => none

mutual

/-- Method `simplify(target_success, watermark_time)` of each subclass.  `none`
models a raised exception: the `assert` failure when a referenced target id is not a
key of the snapshot, and the `ValueError` from `max([])`/`min([])` should an
(unconstructible) empty `MaxAsset`/`MinAsset` be simplified.  Each branch mirrors the
corresponding Python method body, including the order of the resolved /
past-watermark checks. -/
def Asset.simplify (a : Asset) (ts : TargetSuccess) (w : ℚ) : Option Asset :=
  match a with
  | .constant c =>
    if precondOK (.constant c) ts then some (.constant c) else none
  | .satisfiedBy target stop_time =>
    if precondOK (.satisfiedBy target stop_time) ts then
      match ts target with
      | some (some r) =>
        if r.1 ≤ stop_time then some (.constant 1) else some (.constant 0)
      | some none =>
        if stop_time < w then some (.constant 0)
        else some (.satisfiedBy target stop_time)
      | none => none
    else none
  | .agentsSatisfyBy target agent_ids stop_time =>
    if precondOK (.agentsSatisfyBy target agent_ids stop_time) ts then
      match ts target with
      | some (some r) =>
        if r.1 ≤ stop_time ∧ authorIn r.2 agent_ids = true then some (.constant 1)
        else some (.constant 0)
      | some none =>
        if stop_time < w then some (.constant 0)
        else some (.agentsSatisfyBy target agent_ids stop_time)
      | none => none
    else none
  | .timeRemaining target stop_time =>
    if precondOK (.timeRemaining target stop_time) ts then
      match ts target with
      | some (some r) =>
        if r.1 ≤ stop_time then some (.constant (stop_time - r.1))
        else some (.constant 0)
      | some none =>
        if stop_time < w then some (.constant 0)
        else some (.timeRemaining target stop_time)
      | none => none
    else none
  | .max assets =>
    if precondOK (.max assets) ts then
      match simplifyList assets ts w with
      | some simplified =>
        match allConstants simplified with
        | some constants =>
          match pyMax constants with
          | some m => some (.constant m)
          | none => none
        | none => some (.max simplified)
      | none => none
    else none
  | .min assets =>
    if precondOK (.min assets) ts then
      match simplifyList assets ts w with
      | some simplified =>
        match allConstants simplified with
        | some constants =>
          match pyMin constants with
          | some m => some (.constant m)
          | none => none
        | none => some (.min simplified)
      | none => none
    else none
  | .linearCombination terms =>
    if precondOK (.linearCombination terms) ts then
      match simplifyTerms terms ts w with
      | some simplified =>
        match termConstants simplified with
        | some constants => some (.constant (pySum constants))
        | none => some (.linearCombination simplified)
      | none => none
    else none
  | .priceySatisfiedBy target stop_time price =>
    if precondOK (.priceySatisfiedBy target stop_time price) ts then
      match ts target with
      | some (some r) =>
        if r.1 ≤ stop_time then some (.constant (1 - price))
        else some (.constant (-price))
      | some none =>
        if stop_time < w then some (.constant (-price))
        else some (.priceySatisfiedBy target stop_time price)
      | none => none
    else none
  | .priceyTimeRemaining target break_even_time stop_time max_loss =>
    if precondOK (.priceyTimeRemaining target break_even_time stop_time max_loss)
        ts then
      match ts target with
      | some (some r) =>
        if r.1 ≤ stop_time then
          some (.constant (max_loss *
            (Max.max (stop_time - r.1) 0 / (stop_time - break_even_time) - 1)))
        else some (.constant (-max_loss))
      | some none =>
        if stop_time < w then some (.constant (-max_loss))
        else some (.priceyTimeRemaining target break_even_time stop_time max_loss)
      | none => none
    else none
termination_by structural a

/-- List comprehension `[asset.simplify(...) for asset in self.assets]`; a raised
exception in any element propagates (`none`). -/
def simplifyList (l : List Asset) (ts : TargetSuccess) (w : ℚ) :
    Option (List Asset) :=
  match l with
  | [] => some []
  | a :: rest =>
    match a.simplify ts w with
    | some a2 =>
      match simplifyList rest ts w with
      | some rest2 => some (a2 :: rest2)
      | none => none
    | none => none
termination_by structural l

/-- List comprehension `[(coefficient, generator.simplify(...)) for ...]` over the
terms of a `LinearCombinationAsset`. -/
def simplifyTerms (l : List (ℚ × Asset)) (ts : TargetSuccess) (w : ℚ) :
    Option (List (ℚ × Asset)) :=
  match l with
  | [] => some []
  | p :: rest =>
    match p.2.simplify ts w with
    | some g2 =>
      match simplifyTerms rest ts w with
      | some rest2 => some ((p.1, g2) :: rest2)
      | none => none
    | none => none
termination_by structural l

end

mutual

/-- Method `lower_bound(watermark_time)` of each subclass.  For the empty
children list of a `MaxAsset`/`MinAsset` — impossible for assets built through the
asserting constructors — Python's `max([])`/`min([])` would raise; the `.getD 0`
default stands in for that unreachable case. -/
def Asset.lower_bound (a : Asset) (w : ℚ) : ℚ :=
  match a with
  | .constant c => c
  | .satisfiedBy _ _ => 0
  | .agentsSatisfyBy _ _ _ => 0
  | .timeRemaining _ _ => 0
  | .max assets => (pyMax (lowerList assets w)).getD 0
  | .min assets => (pyMin (lowerList assets w)).getD 0
  | .linearCombination terms => pySum (lowerTerms terms w)
  | .priceySatisfiedBy _ _ price => -price
  | .priceyTimeRemaining _ _ _ max_loss => -max_loss
termination_by structural a

/-- Method `upper_bound(watermark_time)` of each subclass; see `Asset.lower_bound`
for the empty-list convention. -/
def Asset.upper_bound (a : Asset) (w : ℚ) : ℚ :=
  match a with
  | .constant c => c
  | .satisfiedBy _ _ => 1
  | .agentsSatisfyBy _ _ _ => 1
  | .timeRemaining _ stop_time => Max.max (stop_time - w) 0
  | .max assets => (pyMax (upperList assets w)).getD 0
  | .min assets => (pyMin (upperList assets w)).getD 0
  | .linearCombination terms => pySum (upperTerms terms w)
  | .priceySatisfiedBy _ _ price => 1 - price
  | .priceyTimeRemaining _ break_even_time stop_time max_loss =>
    max_loss * (Max.max (stop_time - w) 0 / (stop_time - break_even_time) - 1)
termination_by structural a

/-- List comprehension `[asset.lower_bound(watermark_time) for asset in assets]`. -/
def lowerList (l : List Asset) (w : ℚ) : List ℚ :=
  match l with
  | [] => []
  | a :: rest => a.lower_bound w :: lowerList rest w
termination_by structural l

/-- List comprehension `[asset.upper_bound(watermark_time) for asset in assets]`. -/
def upperList (l : List Asset) (w : ℚ) : List ℚ :=
  match l with
  | [] => []
  | a :: rest => a.upper_bound w :: upperList rest w
termination_by structural l

/-- Per-term contributions to `LinearCombinationAsset.lower_bound`: coefficient
times the generator's lower bound when the coefficient is non-negative, its upper
bound otherwise. -/
def lowerTerms (l : List (ℚ × Asset)) (w : ℚ) : List ℚ :=
  match l with
  | [] => []
  | p :: rest =>
    (p.1 * (if p.1 ≥ 0 then p.2.lower_bound w else p.2.upper_bound w))
      :: lowerTerms rest w
termination_by structural l

/-- Per-term contributions to `LinearCombinationAsset.upper_bound`: coefficient
times the generator's upper bound when the coefficient is non-negative, its lower
bound otherwise. -/
def upperTerms (l : List (ℚ × Asset)) (w : ℚ) : List ℚ :=
  match l with
  | [] => []
  | p :: rest =>
    (p.1 * (if p.1 ≥ 0 then p.2.upper_bound w else p.2.lower_bound w))
      :: upperTerms rest w
termination_by structural l

end

mutual

/-- Construction invariants enforced (recursively) by the Python `__init__`
asserts: `MaxAsset`/`MinAsset` require a non-empty children list, and
`PriceyTimeRemainingAsset` requires `stop_time > break_even_time` and
`max_loss > 0`.  An asset built by direct construction satisfies exactly this
predicate. -/
def Asset.constructible : Asset → Bool
  | .constant _ => true
  | .satisfiedBy _ _ => true
  | .agentsSatisfyBy _ _ _ => true
  | .timeRemaining _ _ => true
  | .max assets => !assets.isEmpty && constructibleList assets
  | .min assets => !assets.isEmpty && constructibleList assets
  | .linearCombination terms => constructibleTerms terms
  | .priceySatisfiedBy _ _ _ => true
  | .priceyTimeRemaining _ break_even_time stop_time max_loss =>
    decide (break_even_time < stop_time) && decide (0 < max_loss)
termination_by structural a => a

/-- Conjunction of `Asset.constructible` over a list of assets. -/
def constructibleList : List Asset → Bool
  | [] => true
  | a :: rest => a.constructible && constructibleList rest
termination_by structural l => l

/-- Conjunction of `Asset.constructible` over the generators of a term list. -/
def constructibleTerms : List (ℚ × Asset) → Bool
  | [] => true
  | p :: rest => p.2.constructible && constructibleTerms rest
termination_by structural l => l

end

mutual

/-- Stop times occurring anywhere in an asset tree: the `stop_time` field of every
leaf variant that has one.  Used to state the watermark-past-every-deadline
hypothesis of the termination property. -/
def Asset.stopTimes : Asset → List ℚ
  | .constant _ => []
  | .satisfiedBy _ stop_time => [stop_time]
  | .agentsSatisfyBy _ _ stop_time => [stop_time]
  | .timeRemaining _ stop_time => [stop_time]
  | .max assets => stopTimesList assets
  | .min assets => stopTimesList assets
  | .linearCombination terms => stopTimesTerms terms
  | .priceySatisfiedBy _ stop_time _ => [stop_time]
  | .priceyTimeRemaining _ _ stop_time _ => [stop_time]
termination_by structural a => a

/-- Stop times over a list of assets. -/
def stopTimesList : List Asset → List ℚ
  | [] => []
  | a :: rest => a.stopTimes ++ stopTimesList rest
termination_by structural l => l

/-- Stop times over the generators of a term list. -/
def stopTimesTerms : List (ℚ × Asset) → List ℚ
  | [] => []
  | p :: rest => p.2.stopTimes ++ stopTimesTerms rest
termination_by structural l => l

end

/-- Helper `fraction_to_str` inside `asset_to_str`: the numerator alone when the
denominator is 1, else numerator/denominator.  Both Python's `Fraction` and `ℚ`
keep fractions reduced with a positive denominator, so the printed pieces agree. -/
def fraction_to_str (q : ℚ) : String :=
  if q.den = 1 then toString q.num
  else toString q.num ++ "/" ++ toString q.den

/-- Lowercase hexadecimal digit, as produced by Python's `%04x` formatting. -/
def hexDigitChar (n : Nat) : Char :=
  if n < 10 then Char.ofNat (48 + n) else Char.ofNat (87 + n)

/-- Four lowercase hexadecimal digits of a number below 0x10000. -/
def hex4 (n : Nat) : List Char :=
  [hexDigitChar (n / 4096 % 16), hexDigitChar (n / 256 % 16),
    hexDigitChar (n / 16 % 16), hexDigitChar (n % 16)]

/-- Escaping of one character by CPython's `json.dumps` with its default
`ensure_ascii=True`: quote and backslash get a backslash, the five named control
escapes are used, any other character outside printable ASCII `0x20`–`0x7e` becomes
`\uXXXX` (astral characters as a surrogate pair), and printable ASCII passes
through unchanged. -/
def jsonEscapeChar (c : Char) : List Char :=
  if c = '"' then ['\\', '"']
  else if c = '\\' then ['\\', '\\']
  else if c = '\n' then ['\\', 'n']
  else if c = '\r' then ['\\', 'r']
  else if c = '\t' then ['\\', 't']
  else if c = Char.ofNat 8 then ['\\', 'b']
  else if c = Char.ofNat 12 then ['\\', 'f']
  else if c.toNat < 0x20 ∨ c.toNat > 0x7e then
    if c.toNat ≤ 0xffff then '\\' :: 'u' :: hex4 c.toNat
    else
      ('\\' :: 'u' :: hex4 (0xd800 + (c.toNat - 0x10000) / 0x400)) ++
        ('\\' :: 'u' :: hex4 (0xdc00 + (c.toNat - 0x10000) % 0x400))
  else [c]

/-- Python `json.dumps` applied to a string value. -/
def jsonDumpsString (s : String) : String :=
  String.mk ('"' :: (s.data.flatMap jsonEscapeChar ++ ['"']))

/-- Python `json.dumps` applied to a list of strings: the default separator puts a
comma and a space between items. -/
def jsonDumpsStringList (l : List String) : String :=
  "[" ++ String.intercalate ", " (l.map jsonDumpsString) ++ "]"

mutual

/-- Function `asset_to_str` from the source: deterministic functional notation with
the concrete Python class names as variant names, JSON-escaped string fields and
`fraction_to_str` for rationals. -/
def asset_to_str : Asset → String
  | .constant c => "ConstantAsset(" ++ fraction_to_str c ++ ")"
  | .satisfiedBy target stop_time =>
    "SatisfiedByAsset(" ++ jsonDumpsString target ++ "," ++
      fraction_to_str stop_time ++ ")"
  | .agentsSatisfyBy target agent_ids stop_time =>
    "AgentsSatisfyByAsset(" ++ jsonDumpsString target ++ "," ++
      jsonDumpsStringList agent_ids ++ "," ++ fraction_to_str stop_time ++ ")"
  | .timeRemaining target stop_time =>
    "TimeRemainingAsset(" ++ jsonDumpsString target ++ "," ++
      fraction_to_str stop_time ++ ")"
  | .max assets => "MaxAsset([" ++ String.intercalate "," (strList assets) ++ "])"
  | .min assets => "MinAsset([" ++ String.intercalate "," (strList assets) ++ "])"
  | .linearCombination terms =>
    "LinearCombinationAsset([" ++ String.intercalate "," (strTerms terms) ++ "])"
  | .priceySatisfiedBy target stop_time price =>
    "PriceySatisfiedByAsset(" ++ jsonDumpsString target ++ "," ++
      fraction_to_str stop_time ++ "," ++ fraction_to_str price ++ ")"
  | .priceyTimeRemaining target break_even_time stop_time max_loss =>
    "PriceyTimeRemainingAsset(" ++ jsonDumpsString target ++ "," ++
      fraction_to_str break_even_time ++ "," ++ fraction_to_str stop_time ++ "," ++
      fraction_to_str max_loss ++ ")"
termination_by structural a => a

/-- Encodings of the elements of a `MaxAsset`/`MinAsset` children list. -/
def strList : List Asset → List String
  | [] => []
  | a :: rest => asset_to_str a :: strList rest
termination_by structural l => l

/-- Encodings `(coefficient,claim)` of the terms of a `LinearCombinationAsset`. -/
def strTerms : List (ℚ × Asset) → List String
  | [] => []
  | p :: rest =>
    ("(" ++ fraction_to_str p.1 ++ "," ++ asset_to_str p.2 ++ ")") :: strTerms rest
termination_by structural l => l

end

/-- ASCII whitespace stripped by Python's `str.strip` (Python also strips the rare
non-ASCII Unicode whitespace, which never occurs in this grammar). -/
def isPyWhitespace (c : Char) : Bool :=
  c = ' ' || c = '\t' || c = '\n' || c = '\r' || c = Char.ofNat 11 || c = Char.ofNat 12

/-- Python `str.strip()`. -/
def pyStrip (s : List Char) : List Char :=
  ((s.dropWhile isPyWhitespace).reverse.dropWhile isPyWhitespace).reverse

/-- Value of a decimal digit character, `none` for any other character. -/
def digitVal (c : Char) : Option Nat :=
  if '0' ≤ c ∧ c ≤ '9' then some (c.toNat - 48) else none

/-- Digits of a Python integer literal after the first one: single underscores may
appear, but only between two digits. -/
def pyParseDigitsRest (acc : Nat) : List Char → Option Nat
  | [] => some acc
  | '_' :: rest =>
    match rest with
    | c :: rest2 =>
      match digitVal c with
      | some d => pyParseDigitsRest (acc * 10 + d) rest2
      | none => none
    | [] => none
  | c :: rest =>
    match digitVal c with
    | some d => pyParseDigitsRest (acc * 10 + d) rest
    | none => none

/-- Non-empty digit run starting a Python integer literal. -/
def pyParseUnsigned : List Char → Option Nat
  | [] => none
  | c :: rest =>
    match digitVal c with
    | some d => pyParseDigitsRest d rest
    | none => none

/-- Signed part of a Python integer literal. -/
def pyParseSigned : List Char → Option Int
  | '+' :: rest => (pyParseUnsigned rest).map Int.ofNat
  | '-' :: rest => (pyParseUnsigned rest).map (fun n => -(n : Int))
  | l => (pyParseUnsigned l).map Int.ofNat

/-- Python `int(s)` on a string: surrounding whitespace is ignored, then an optional
sign and a non-empty digit run (with single underscores between digits).  The error
models the `ValueError` Python raises on anything else. -/
def pyInt (s : List Char) : Except String Int :=
  match pyParseSigned (pyStrip s) with
  | some n => .ok n
  | none => .error ("invalid literal for int() with base 10: " ++ String.mk s)

/-- Python `s.split("/")`. -/
def splitOnSlash : List Char → List (List Char)
  | [] => [[]]
  | '/' :: rest => [] :: splitOnSlash rest
  | c :: rest =>
    match splitOnSlash rest with
    | piece :: pieces => (c :: piece) :: pieces
    | [] => [[c]]

/-- Helper `parse_fraction` inside `str_to_asset`: when a slash is present, the
first two `split("/")` pieces become numerator and denominator — exactly like the
Python `parts[0]`/`parts[1]` indexing, any further pieces are silently dropped —
else the whole string is an integer.  A zero denominator models the
`ZeroDivisionError` of `Fraction(n, 0)`; `ℚ` division reproduces `Fraction`'s sign
and lowest-terms normalization. -/
def parse_fraction (s : List Char) : Except String ℚ :=
  if s.contains '/' then
    match splitOnSlash s with
    | p0 :: p1 :: _ => do
      let n ← pyInt p0
      let d ← pyInt p1
      if d = 0 then .error "ZeroDivisionError: Fraction(n, 0)"
      else .ok ((n : ℚ) / (d : ℚ))
    | _ => .error "unreachable: a slash is present"
  else do
    let n ← pyInt s
    .ok ((n : ℚ))

/-- Scan of `find_matching_paren` from a given index with the running count; note
that, exactly like the source, it does not skip parentheses that occur inside
quoted strings. -/
def findParenFrom : List Char → Nat → Int → Except String Nat
  | [], _, _ => .error "Unmatched parenthesis"
  | c :: rest, i, count =>
    if c = '(' then findParenFrom rest (i + 1) (count + 1)
    else if c = ')' then
      if count - 1 = 0 then .ok i else findParenFrom rest (i + 1) (count - 1)
    else findParenFrom rest (i + 1) count

/-- Helper `find_matching_paren(s, start)` from the source. -/
def find_matching_paren (s : List Char) (start : Nat) : Except String Nat :=
  findParenFrom (s.drop start) start 0

/-- Python `string.index("(")`: position of the first opening parenthesis. -/
def indexOfOpenParen (s : List Char) : Except String Nat :=
  match s.findIdx? (· = '(') with
  | some i => .ok i
  | none => .error "substring not found"

/-- State of the `parse_arguments` character loop: finished arguments, current
argument (reversed), parenthesis depth, bracket depth, quoted-string flag and
backslash-escape flag. -/
structure ArgState : Type where
  args : List (List Char)
  current : List Char
  depth : Int
  bracketDepth : Int
  inString : Bool
  escape : Bool

/-- One step of the `parse_arguments` loop, mirroring the Python branch order: a
just-escaped character is kept verbatim; a backslash inside a quoted string sets the
escape flag; an unescaped quote toggles string mode; outside a string, parens and
brackets adjust the depths and a comma at depth zero ends the current argument. -/
def parseArgsStep (st : ArgState) (c : Char) : ArgState :=
  if st.escape then ⟨st.args, c :: st.current, st.depth, st.bracketDepth, st.inString, false⟩
  else if c = '\\' ∧ st.inString then
    ⟨st.args, c :: st.current, st.depth, st.bracketDepth, st.inString, true⟩
  else if c = '"' then
    ⟨st.args, c :: st.current, st.depth, st.bracketDepth, !st.inString, false⟩
  else if !st.inString then
    if c = '(' then ⟨st.args, c :: st.current, st.depth + 1, st.bracketDepth, st.inString, false⟩
    else if c = ')' then ⟨st.args, c :: st.current, st.depth - 1, st.bracketDepth, st.inString, false⟩
    else if c = '[' then ⟨st.args, c :: st.current, st.depth, st.bracketDepth + 1, st.inString, false⟩
    else if c = ']' then ⟨st.args, c :: st.current, st.depth, st.bracketDepth - 1, st.inString, false⟩
    else if c = ',' ∧ st.depth = 0 ∧ st.bracketDepth = 0 then
      ⟨st.args ++ [st.current.reverse], [], st.depth, st.bracketDepth, st.inString, false⟩
    else ⟨st.args, c :: st.current, st.depth, st.bracketDepth, st.inString, false⟩
  else ⟨st.args, c :: st.current, st.depth, st.bracketDepth, st.inString, false⟩

/-- Helper `parse_arguments` from the source: split on top-level commas only,
tracking nesting depth for parens and brackets and a quoted-string mode with
backslash escaping. -/
def parse_arguments (s : List Char) : List (List Char) :=
  let st := s.foldl parseArgsStep ⟨[], [], 0, 0, false, false⟩
  if st.current.isEmpty then st.args else st.args ++ [st.current.reverse]

/-- JSON whitespace accepted around a document by `json.loads`. -/
def jsonWs (c : Char) : Bool :=
  c = ' ' || c = '\t' || c = '\n' || c = '\r'

/-- Value of a hexadecimal digit character in a `\uXXXX` escape (json accepts both
cases), `none` for any other character. -/
def hexVal (c : Char) : Option Nat :=
  if '0' ≤ c ∧ c ≤ '9' then some (c.toNat - 48)
  else if 'a' ≤ c ∧ c ≤ 'f' then some (c.toNat - 87)
  else if 'A' ≤ c ∧ c ≤ 'F' then some (c.toNat - 55)
  else none

/-- Body of a JSON string literal after the opening quote, CPython `json` strict
mode: the standard named escapes, `\uXXXX` with surrogate-pair combination, raw
control characters rejected.  One deliberate divergence: a lone surrogate escape is
an error here, where Python would keep an unpaired-surrogate code unit that a Lean
`Char` cannot represent — no output of the encoder contains one. -/
def parseJsonStringBody (acc : List Char) : List Char → Except String (String × List Char)
  | [] => .error "Unterminated string starting at"
  | '"' :: rest => .ok (String.mk acc.reverse, rest)
  | '\\' :: esc =>
    match esc with
    | '"' :: rest => parseJsonStringBody ('"' :: acc) rest
    | '\\' :: rest => parseJsonStringBody ('\\' :: acc) rest
    | '/' :: rest => parseJsonStringBody ('/' :: acc) rest
    | 'b' :: rest => parseJsonStringBody (Char.ofNat 8 :: acc) rest
    | 'f' :: rest => parseJsonStringBody (Char.ofNat 12 :: acc) rest
    | 'n' :: rest => parseJsonStringBody ('\n' :: acc) rest
    | 'r' :: rest => parseJsonStringBody ('\r' :: acc) rest
    | 't' :: rest => parseJsonStringBody ('\t' :: acc) rest
    | 'u' :: h1 :: h2 :: h3 :: h4 :: rest =>
      match hexVal h1, hexVal h2, hexVal h3, hexVal h4 with
      | some a, some b, some c, some d =>
        let n := ((a * 16 + b) * 16 + c) * 16 + d
        if 0xd800 ≤ n ∧ n ≤ 0xdbff then
          match rest with
          | '\\' :: 'u' :: g1 :: g2 :: g3 :: g4 :: rest2 =>
            match hexVal g1, hexVal g2, hexVal g3, hexVal g4 with
            | some a2, some b2, some c2, some d2 =>
              let m := ((a2 * 16 + b2) * 16 + c2) * 16 + d2
              if 0xdc00 ≤ m ∧ m ≤ 0xdfff then
                parseJsonStringBody
                  (Char.ofNat (0x10000 + (n - 0xd800) * 0x400 + (m - 0xdc00)) :: acc)
                  rest2
              else .error "Unpaired high surrogate"
            | _, _, _, _ => .error "Invalid \\uXXXX escape"
          | _ => .error "Unpaired high surrogate"
        else if 0xdc00 ≤ n ∧ n ≤ 0xdfff then .error "Unpaired low surrogate"
        else parseJsonStringBody (Char.ofNat n :: acc) rest
      | _, _, _, _ => .error "Invalid \\uXXXX escape"
    | _ => .error "Invalid \\escape"
  | c :: rest =>
    if c.toNat < 0x20 then .error "Invalid control character"
    else parseJsonStringBody (c :: acc) rest

/-- JSON string literal: an opening quote followed by a string body. -/
def parseJsonString : List Char → Except String (String × List Char)
  | '"' :: rest => parseJsonStringBody [] rest
  | _ => .error "Expecting value"

/-- Python `json.loads` restricted to a single string-literal document, as used for
the `target` field: optional surrounding JSON whitespace, one string, and nothing
else ("Extra data" otherwise).  The real `json.loads` accepts any JSON document;
the source only ever stores strings in this position, and every non-string document
would produce a non-string target that no encoder output contains. -/
def jsonLoadsString (s : List Char) : Except String String := do
  let p ← parseJsonString (s.dropWhile jsonWs)
  if p.2.dropWhile jsonWs = [] then .ok p.1 else .error "Extra data"

/-- Comma-separated items of a JSON array of strings, after the opening bracket and
any leading whitespace, with recursion fuel (one unit per item; the caller passes
more fuel than the input length, and every item consumes at least two characters,
so the fuel branch is unreachable). -/
def parseJsonArrayItems : Nat → List Char → Except String (List String × List Char)
  | 0, _ => .error "recursion fuel exhausted"
  | fuel + 1, s => do
    let p ← parseJsonString s
    match p.2.dropWhile jsonWs with
    | ',' :: rest2 => do
      let q ← parseJsonArrayItems fuel (rest2.dropWhile jsonWs)
      .ok (p.1 :: q.1, q.2)
    | ']' :: rest2 => .ok ([p.1], rest2)
    | _ => .error "Expecting ',' delimiter"

/-- Python `json.loads` restricted to a single document that is an array of string
literals, as used for the `agent_ids` field (the same caveat as for
`jsonLoadsString` applies). -/
def jsonLoadsStringList (s : List Char) : Except String (List String) := do
  let t := s.dropWhile jsonWs
  match t with
  | '[' :: rest =>
    let r := rest.dropWhile jsonWs
    match r with
    | ']' :: rest2 =>
      if rest2.dropWhile jsonWs = [] then .ok [] else .error "Extra data"
    | _ => do
      let q ← parseJsonArrayItems (s.length + 2) r
      if q.2.dropWhile jsonWs = [] then .ok q.1 else .error "Extra data"
  | _ => .error "Expecting value"

/-- Python slice `s[a:b]` for `0 ≤ a`, `0 ≤ b`. -/
def pySlice (s : List Char) (a b : Nat) : List Char :=
  (s.take b).drop a

/-- Python `s.startswith(p)`. -/
def pyStartsWith (s : List Char) (p : String) : Bool :=
  p.data.isPrefixOf s

/-- Python `s.endswith(t)` for a one-character `t`. -/
def pyEndsWithChar (s : List Char) (c : Char) : Bool :=
  s.getLast? = some c

/-- Python `args[i]`; the error models the `IndexError` on a too-short list. -/
def listGet : List (List Char) → Nat → Except String (List Char)
  | [], _ => .error "IndexError: list index out of range"
  | x :: _, 0 => .ok x
  | _ :: rest, n + 1 => listGet rest n

/-- Constructor `MaxAsset(assets)`: the `__init__` assert requires a non-empty
list. -/
def mkMax (assets : List Asset) : Except String Asset :=
  if assets.isEmpty then .error "MaxAsset must have non-empty assets list"
  else .ok (.max assets)

/-- Constructor `MinAsset(assets)`: the `__init__` assert requires a non-empty
list. -/
def mkMin (assets : List Asset) : Except String Asset :=
  if assets.isEmpty then .error "MinAsset must have non-empty assets list"
  else .ok (.min assets)

/-- Constructor `PriceyTimeRemainingAsset(...)`: the `__init__` asserts require
`stop_time > break_even_time` and `max_loss > 0`. -/
def mkPriceyTimeRemaining (target : String)
    (break_even_time stop_time max_loss : ℚ) : Except String Asset :=
  if ¬ (break_even_time < stop_time) then .error "stop_time must be > break_even_time"
  else if ¬ (0 < max_loss) then .error "max_loss must be > 0"
  else .ok (.priceyTimeRemaining target break_even_time stop_time max_loss)

mutual

/-- Function `str_to_asset` from the source, with recursion fuel as the Lean
totality device: every recursive call works on a strict sub-slice of the input, so
the generous fuel the wrapper passes is never exhausted on inputs the Python
function terminates on.  Each branch mirrors the Python branch for the same variant
prefix, in the same order. -/
def strToAssetCore : Nat → List Char → Except String Asset
  | 0, _ => .error "recursion fuel exhausted"
  | fuel + 1, s0 =>
    let s := pyStrip s0
    if pyStartsWith s "ConstantAsset(" then do
      let i ← indexOfOpenParen s
      let e ← find_matching_paren s i
      let q ← parse_fraction (pySlice s 14 e)
      .ok (.constant q)
    else if pyStartsWith s "SatisfiedByAsset(" then do
      let i ← indexOfOpenParen s
      let e ← find_matching_paren s i
      let args := parse_arguments (pySlice s 17 e)
      let a0 ← listGet args 0
      let target ← jsonLoadsString a0
      let a1 ← listGet args 1
      let stop_time ← parse_fraction a1
      .ok (.satisfiedBy target stop_time)
    else if pyStartsWith s "AgentsSatisfyByAsset(" then do
      let i ← indexOfOpenParen s
      let e ← find_matching_paren s i
      let args := parse_arguments (pySlice s 21 e)
      let a0 ← listGet args 0
      let target ← jsonLoadsString a0
      let a1 ← listGet args 1
      let agent_ids ← jsonLoadsStringList a1
      let a2 ← listGet args 2
      let stop_time ← parse_fraction a2
      .ok (.agentsSatisfyBy target agent_ids stop_time)
    else if pyStartsWith s "TimeRemainingAsset(" then do
      let i ← indexOfOpenParen s
      let e ← find_matching_paren s i
      let args := parse_arguments (pySlice s 19 e)
      let a0 ← listGet args 0
      let target ← jsonLoadsString a0
      let a1 ← listGet args 1
      let stop_time ← parse_fraction a1
      .ok (.timeRemaining target stop_time)
    else if pyStartsWith s "MaxAsset(" then do
      let i ← indexOfOpenParen s
      let e ← find_matching_paren s i
      let lc := pyStrip (pySlice s 9 e)
      if pyStartsWith lc "[" ∧ pyEndsWithChar lc ']' then
        let inner := (lc.drop 1).dropLast
        if inner.isEmpty then .error "MaxAsset must have non-empty assets list"
        else do
          let assets ← decodeAssetList fuel (parse_arguments inner)
          mkMax assets
      else .error "MaxAsset expects a list"
    else if pyStartsWith s "MinAsset(" then do
      let i ← indexOfOpenParen s
      let e ← find_matching_paren s i
      let lc := pyStrip (pySlice s 9 e)
      if pyStartsWith lc "[" ∧ pyEndsWithChar lc ']' then
        let inner := (lc.drop 1).dropLast
        if inner.isEmpty then .error "MinAsset must have non-empty assets list"
        else do
          let assets ← decodeAssetList fuel (parse_arguments inner)
          mkMin assets
      else .error "MinAsset expects a list"
    else if pyStartsWith s "LinearCombinationAsset(" then do
      let i ← indexOfOpenParen s
      let e ← find_matching_paren s i
      let lc := pyStrip (pySlice s 23 e)
      if pyStartsWith lc "[" ∧ pyEndsWithChar lc ']' then
        let inner := (lc.drop 1).dropLast
        do
          let terms ← decodeTermList fuel (parse_arguments inner)
          .ok (.linearCombination terms)
      else .error "LinearCombinationAsset expects a list"
    else if pyStartsWith s "PriceySatisfiedByAsset(" then do
      let i ← indexOfOpenParen s
      let e ← find_matching_paren s i
      let args := parse_arguments (pySlice s 23 e)
      let a0 ← listGet args 0
      let target ← jsonLoadsString a0
      let a1 ← listGet args 1
      let stop_time ← parse_fraction a1
      let a2 ← listGet args 2
      let price ← parse_fraction a2
      .ok (.priceySatisfiedBy target stop_time price)
    else if pyStartsWith s "PriceyTimeRemainingAsset(" then do
      let i ← indexOfOpenParen s
      let e ← find_matching_paren s i
      let args := parse_arguments (pySlice s 25 e)
      let a0 ← listGet args 0
      let target ← jsonLoadsString a0
      let a1 ← listGet args 1
      let break_even_time ← parse_fraction a1
      let a2 ← listGet args 2
      let stop_time ← parse_fraction a2
      let a3 ← listGet args 3
      let max_loss ← parse_fraction a3
      mkPriceyTimeRemaining target break_even_time stop_time max_loss
    else .error ("Unknown asset type in string: " ++ String.mk s)

/-- Recursive decoding `[str_to_asset(s) for s in asset_strs]` of the children of a
`MaxAsset`/`MinAsset`. -/
def decodeAssetList : Nat → List (List Char) → Except String (List Asset)
  | 0, _ => .error "recursion fuel exhausted"
  | _ + 1, [] => .ok []
  | fuel + 1, p :: rest => do
    let a ← strToAssetCore fuel p
    let l ← decodeAssetList fuel rest
    .ok (a :: l)

/-- Term loop of the `LinearCombinationAsset` branch: each term must be a
parenthesized tuple whose first part is a fraction and whose second part is a
recursively decoded asset. -/
def decodeTermList : Nat → List (List Char) → Except String (List (ℚ × Asset))
  | 0, _ => .error "recursion fuel exhausted"
  | _ + 1, [] => .ok []
  | fuel + 1, p :: rest => do
    let t := pyStrip p
    if pyStartsWith t "(" ∧ pyEndsWithChar t ')' then do
      let parts := parse_arguments ((t.drop 1).dropLast)
      let p0 ← listGet parts 0
      let coeff ← parse_fraction p0
      let p1 ← listGet parts 1
      let asset ← strToAssetCore fuel p1
      let l ← decodeTermList fuel rest
      .ok ((coeff, asset) :: l)
    else .error "Each term must be a tuple"

end

/-- Wrapper giving `str_to_asset` its fuel: the recursion depth of the Python
function is bounded by the input length, so this fuel is never exhausted on inputs
Python terminates on. -/
def str_to_asset (s : String) : Except String Asset :=
  strToAssetCore (2 * s.length + 4) s.data

/-- Compatibility of a resolution snapshot with a watermark time: resolution
information up to the watermark is complete, so a target the bounds computation may
still see as open can only resolve at or after the watermark — every resolution
fact carried by a snapshot the watermark is compatible with is timed accordingly. -/
def consistentWith (ts : TargetSuccess) (w : ℚ) : Prop :=
  ∀ t r, ts t = some (some r) → w ≤ r.1

/-- Sample resolution snapshot used by the witnesses: target "t1" resolved at time
7 by "alice", every other target id absent from the snapshot. -/
def sampleSnapshot : TargetSuccess := fun t =>
  if t = "t1" then some (some (7, some "alice")) else none



mutual

/-- Induction principle for `Asset` with list-membership induction hypotheses for
the three composite variants. -/
def assetInduction (P : Asset → Prop)
    (hconst : ∀ c, P (.constant c))
    (hsat : ∀ t s, P (.satisfiedBy t s))
    (hagents : ∀ t ids s, P (.agentsSatisfyBy t ids s))
    (htime : ∀ t s, P (.timeRemaining t s))
    (hmax : ∀ l, (∀ a ∈ l, P a) → P (.max l))
    (hmin : ∀ l, (∀ a ∈ l, P a) → P (.min l))
    (hlin : ∀ ps, (∀ p ∈ ps, P p.2) → P (.linearCombination ps))
    (hps : ∀ t s pr, P (.priceySatisfiedBy t s pr))
    (hptr : ∀ t b s m, P (.priceyTimeRemaining t b s m)) : ∀ a, P a
  | .constant c => hconst c
  | .satisfiedBy t s => hsat t s
  | .agentsSatisfyBy t ids s => hagents t ids s
  | .timeRemaining t s => htime t s
  | .max l => hmax l (assetInductionList P hconst hsat hagents htime hmax hmin hlin hps hptr l)
  | .min l => hmin l (assetInductionList P hconst hsat hagents htime hmax hmin hlin hps hptr l)
  | .linearCombination ps =>
    hlin ps (assetInductionTerms P hconst hsat hagents htime hmax hmin hlin hps hptr ps)
  | .priceySatisfiedBy t s pr => hps t s pr
  | .priceyTimeRemaining t b s m => hptr t b s m
termination_by structural a => a

/-- List part of `assetInduction`. -/
def assetInductionList (P : Asset → Prop)
    (hconst : ∀ c, P (.constant c))
    (hsat : ∀ t s, P (.satisfiedBy t s))
    (hagents : ∀ t ids s, P (.agentsSatisfyBy t ids s))
    (htime : ∀ t s, P (.timeRemaining t s))
    (hmax : ∀ l, (∀ a ∈ l, P a) → P (.max l))
    (hmin : ∀ l, (∀ a ∈ l, P a) → P (.min l))
    (hlin : ∀ ps, (∀ p ∈ ps, P p.2) → P (.linearCombination ps))
    (hps : ∀ t s pr, P (.priceySatisfiedBy t s pr))
    (hptr : ∀ t b s m, P (.priceyTimeRemaining t b s m)) :
    ∀ l : List Asset, ∀ a ∈ l, P a
  | [], a, ha => absurd ha (List.not_mem_nil a)
  | b :: rest, a, ha => by
    rcases List.mem_cons.mp ha with h | h
    · exact h ▸ assetInduction P hconst hsat hagents htime hmax hmin hlin hps hptr b
    · exact assetInductionList P hconst hsat hagents htime hmax hmin hlin hps hptr rest a h
termination_by structural l => l

/-- Term-list part of `assetInduction`. -/
def assetInductionTerms (P : Asset → Prop)
    (hconst : ∀ c, P (.constant c))
    (hsat : ∀ t s, P (.satisfiedBy t s))
    (hagents : ∀ t ids s, P (.agentsSatisfyBy t ids s))
    (htime : ∀ t s, P (.timeRemaining t s))
    (hmax : ∀ l, (∀ a ∈ l, P a) → P (.max l))
    (hmin : ∀ l, (∀ a ∈ l, P a) → P (.min l))
    (hlin : ∀ ps, (∀ p ∈ ps, P p.2) → P (.linearCombination ps))
    (hps : ∀ t s pr, P (.priceySatisfiedBy t s pr))
    (hptr : ∀ t b s m, P (.priceyTimeRemaining t b s m)) :
    ∀ ps : List (ℚ × Asset), ∀ p ∈ ps, P p.2
  | [], p, hp => absurd hp (List.not_mem_nil p)
  | q :: rest, p, hp => by
    rcases List.mem_cons.mp hp with h | h
    · exact h ▸ assetInduction P hconst hsat hagents htime hmax hmin hlin hps hptr q.2
    · exact assetInductionTerms P hconst hsat hagents htime hmax hmin hlin hps hptr rest p h
termination_by structural l => l

end



theorem mem_referencedList {t : String} {l : List Asset} :
    t ∈ referencedList l ↔ ∃ a ∈ l, t ∈ a.referenced_target_ids := by
  induction l with
  | nil => simp [referencedList]
  | cons a rest ih => simp [referencedList, ih]

theorem mem_referencedTerms {t : String} {ps : List (ℚ × Asset)} :
    t ∈ referencedTerms ps ↔ ∃ p ∈ ps, t ∈ p.2.referenced_target_ids := by
  induction ps with
  | nil => simp [referencedTerms]
  | cons p rest ih => simp [referencedTerms, ih]

theorem simplifyList_some_iff {l l' : List Asset} {ts : TargetSuccess} {w : ℚ} :
    simplifyList l ts w = some l' ↔
      List.Forall₂ (fun a b => a.simplify ts w = some b) l l' := by
  induction l generalizing l' with
  | nil =>
    constructor
    · intro h
      simp [simplifyList] at h
      subst h
      exact List.Forall₂.nil
    · intro h
      cases h
      simp [simplifyList]
  | cons a rest ih =>
    constructor
    · intro h
      simp only [simplifyList] at h
      cases ha : a.simplify ts w with
      | none => rw [ha] at h; exact absurd h (by simp)
      | some a2 =>
        rw [ha] at h
        cases hr : simplifyList rest ts w with
        | none => rw [hr] at h; exact absurd h (by simp)
        | some r2 =>
          rw [hr] at h
          simp only [Option.some.injEq] at h
          subst h
          exact List.Forall₂.cons ha (ih.mp hr)
    · intro h
      cases h with
      | cons ha hrest =>
        simp only [simplifyList]
        rw [ha, ih.mpr hrest]

theorem simplifyTerms_some_iff {ps ps' : List (ℚ × Asset)} {ts : TargetSuccess}
    {w : ℚ} :
    simplifyTerms ps ts w = some ps' ↔
      List.Forall₂ (fun p q => p.1 = q.1 ∧ p.2.simplify ts w = some q.2) ps ps' := by
  induction ps generalizing ps' with
  | nil =>
    constructor
    · intro h
      simp [simplifyTerms] at h
      subst h
      exact List.Forall₂.nil
    · intro h
      cases h
      simp [simplifyTerms]
  | cons p rest ih =>
    constructor
    · intro h
      simp only [simplifyTerms] at h
      cases hp : p.2.simplify ts w with
      | none => rw [hp] at h; exact absurd h (by simp)
      | some g2 =>
        rw [hp] at h
        cases hr : simplifyTerms rest ts w with
        | none => rw [hr] at h; exact absurd h (by simp)
        | some r2 =>
          rw [hr] at h
          simp only [Option.some.injEq] at h
          subst h
          exact List.Forall₂.cons ⟨rfl, hp⟩ (ih.mp hr)
    · intro h
      cases h with
      | cons hp hrest =>
        simp only [simplifyTerms]
        rw [hp.2, ih.mpr hrest]
        obtain ⟨p1, p2⟩ := p
        simp only [Option.some.injEq]
        have := hp.1
        simp at this
        rw [this]

theorem forall₂_mem_right {α β : Type} {R : α → β → Prop} {l : List α}
    {l' : List β} {b : β} (h : List.Forall₂ R l l') (hb : b ∈ l') :
    ∃ a ∈ l, R a b := by
  induction h with
  | nil => cases hb
  | cons hR hrest ih =>
    rcases List.mem_cons.mp hb with h1 | h1
    · exact ⟨_, List.mem_cons_self _ _, h1 ▸ hR⟩
    · obtain ⟨a, ha, hr⟩ := ih h1
      exact ⟨a, List.mem_cons_of_mem _ ha, hr⟩

theorem refs_simplify_subset (ts : TargetSuccess) (w : ℚ) :
    ∀ a a' : Asset, a.simplify ts w = some a' →
      a'.referenced_target_ids ⊆ a.referenced_target_ids := by
  intro a
  induction a using assetInduction with
  | hconst c =>
    intro a' h
    simp only [Asset.simplify] at h
    split at h
    · cases h; exact List.Subset.refl _
    · cases h
  | hsat t s =>
    intro a' h
    simp only [Asset.simplify] at h
    split at h
    · split at h
      · split at h <;> (cases h; exact List.nil_subset _)
      · split at h
        · cases h; exact List.nil_subset _
        · cases h; exact List.Subset.refl _
      · cases h
    · cases h
  | hagents t ids s =>
    intro a' h
    simp only [Asset.simplify] at h
    split at h
    · split at h
      · split at h <;> (cases h; exact List.nil_subset _)
      · split at h
        · cases h; exact List.nil_subset _
        · cases h; exact List.Subset.refl _
      · cases h
    · cases h
  | htime t s =>
    intro a' h
    simp only [Asset.simplify] at h
    split at h
    · split at h
      · split at h <;> (cases h; exact List.nil_subset _)
      · split at h
        · cases h; exact List.nil_subset _
        · cases h; exact List.Subset.refl _
      · cases h
    · cases h
  | hps t s pr =>
    intro a' h
    simp only [Asset.simplify] at h
    split at h
    · split at h
      · split at h <;> (cases h; exact List.nil_subset _)
      · split at h
        · cases h; exact List.nil_subset _
        · cases h; exact List.Subset.refl _
      · cases h
    · cases h
  | hptr t b s m =>
    intro a' h
    simp only [Asset.simplify] at h
    split at h
    · split at h
      · split at h <;> (cases h; exact List.nil_subset _)
      · split at h
        · cases h; exact List.nil_subset _
        · cases h; exact List.Subset.refl _
      · cases h
    · cases h
  | hmax l ih =>
    intro a' h
    simp only [Asset.simplify] at h
    by_cases hpre : precondOK (.max l) ts = true
    · rw [if_pos hpre] at h
      cases hsl : simplifyList l ts w with
      | none => simp only [hsl] at h; exact Option.noConfusion h
      | some simplified =>
        simp only [hsl] at h
        cases hac : allConstants simplified with
        | some constants =>
          simp only [hac] at h
          cases hpm : pyMax constants with
          | some m =>
            simp only [hpm, Option.some.injEq] at h
            subst h
            simp only [Asset.referenced_target_ids]
            exact List.nil_subset _
          | none => simp only [hpm] at h; exact Option.noConfusion h
        | none =>
          simp only [hac, Option.some.injEq] at h
          subst h
          intro t ht
          simp only [Asset.referenced_target_ids] at ht ⊢
          obtain ⟨b, hb, htb⟩ := mem_referencedList.mp ht
          obtain ⟨a, ha, hab⟩ := forall₂_mem_right (simplifyList_some_iff.mp hsl) hb
          exact mem_referencedList.mpr ⟨a, ha, ih a ha b hab htb⟩
    · rw [if_neg hpre] at h
      cases h
  | hmin l ih =>
    intro a' h
    simp only [Asset.simplify] at h
    by_cases hpre : precondOK (.min l) ts = true
    · rw [if_pos hpre] at h
      cases hsl : simplifyList l ts w with
      | none => simp only [hsl] at h; exact Option.noConfusion h
      | some simplified =>
        simp only [hsl] at h
        cases hac : allConstants simplified with
        | some constants =>
          simp only [hac] at h
          cases hpm : pyMin constants with
          | some m =>
            simp only [hpm, Option.some.injEq] at h
            subst h
            simp only [Asset.referenced_target_ids]
            exact List.nil_subset _
          | none => simp only [hpm] at h; exact Option.noConfusion h
        | none =>
          simp only [hac, Option.some.injEq] at h
          subst h
          intro t ht
          simp only [Asset.referenced_target_ids] at ht ⊢
          obtain ⟨b, hb, htb⟩ := mem_referencedList.mp ht
          obtain ⟨a, ha, hab⟩ := forall₂_mem_right (simplifyList_some_iff.mp hsl) hb
          exact mem_referencedList.mpr ⟨a, ha, ih a ha b hab htb⟩
    · rw [if_neg hpre] at h
      cases h
  | hlin ps ih =>
    intro a' h
    simp only [Asset.simplify] at h
    by_cases hpre : precondOK (.linearCombination ps) ts = true
    · rw [if_pos hpre] at h
      cases hsl : simplifyTerms ps ts w with
      | none => simp only [hsl] at h; exact Option.noConfusion h
      | some simplified =>
        simp only [hsl] at h
        cases hac : termConstants simplified with
        | some constants =>
          simp only [hac, Option.some.injEq] at h
          subst h
          simp only [Asset.referenced_target_ids]
          exact List.nil_subset _
        | none =>
          simp only [hac, Option.some.injEq] at h
          subst h
          intro t ht
          simp only [Asset.referenced_target_ids] at ht ⊢
          obtain ⟨q, hq, htq⟩ := mem_referencedTerms.mp ht
          obtain ⟨p, hp, hpq⟩ := forall₂_mem_right (simplifyTerms_some_iff.mp hsl) hq
          exact mem_referencedTerms.mpr ⟨p, hp, ih p hp q.2 hpq.2 htq⟩
    · rw [if_neg hpre] at h
      cases h



theorem precondOK_iff {a : Asset} {ts : TargetSuccess} :
    precondOK a ts = true ↔ ∀ t ∈ a.referenced_target_ids, (ts t).isSome := by
  simp [precondOK, List.all_eq_true]

theorem mem_stopTimesList {s : ℚ} {l : List Asset} :
    s ∈ stopTimesList l ↔ ∃ a ∈ l, s ∈ a.stopTimes := by
  induction l with
  | nil => simp [stopTimesList]
  | cons a rest ih => simp [stopTimesList, ih]

theorem mem_stopTimesTerms {s : ℚ} {ps : List (ℚ × Asset)} :
    s ∈ stopTimesTerms ps ↔ ∃ p ∈ ps, s ∈ p.2.stopTimes := by
  induction ps with
  | nil => simp [stopTimesTerms]
  | cons p rest ih => simp [stopTimesTerms, ih]

theorem constructibleList_iff {l : List Asset} :
    constructibleList l = true ↔ ∀ a ∈ l, a.constructible = true := by
  induction l with
  | nil => simp [constructibleList]
  | cons a rest ih => simp [constructibleList, ih]

theorem constructibleTerms_iff {ps : List (ℚ × Asset)} :
    constructibleTerms ps = true ↔ ∀ p ∈ ps, p.2.constructible = true := by
  induction ps with
  | nil => simp [constructibleTerms]
  | cons p rest ih => simp [constructibleTerms, ih]

theorem allConstants_map (qs : List ℚ) :
    allConstants (qs.map Asset.constant) = some qs := by
  induction qs with
  | nil => simp [allConstants]
  | cons q rest ih => simp [allConstants, ih]

theorem simplifyList_constants {l : List Asset} {ts : TargetSuccess} {w : ℚ}
    (h : ∀ a ∈ l, ∃ q, a.simplify ts w = some (.constant q)) :
    ∃ qs : List ℚ, simplifyList l ts w = some (qs.map Asset.constant) ∧
      qs.length = l.length := by
  induction l with
  | nil => exact ⟨[], by simp [simplifyList], rfl⟩
  | cons a rest ih =>
    obtain ⟨q, hq⟩ := h a (List.mem_cons_self a rest)
    obtain ⟨qs, hqs, hlen⟩ := ih (fun b hb => h b (List.mem_cons_of_mem a hb))
    exact ⟨q :: qs, by simp [simplifyList, hq, hqs], by simp [hlen]⟩

theorem simplifyTerms_constants {ps : List (ℚ × Asset)} {ts : TargetSuccess}
    {w : ℚ} (h : ∀ p ∈ ps, ∃ q, p.2.simplify ts w = some (.constant q)) :
    ∃ ps' qs, simplifyTerms ps ts w = some ps' ∧ termConstants ps' = some qs := by
  induction ps with
  | nil => exact ⟨[], [], by simp [simplifyTerms], by simp [termConstants]⟩
  | cons p rest ih =>
    obtain ⟨q, hq⟩ := h p (List.mem_cons_self p rest)
    obtain ⟨ps', qs, hps, hqs⟩ := ih (fun b hb => h b (List.mem_cons_of_mem p hb))
    exact ⟨(p.1, .constant q) :: ps', p.1 * q :: qs,
      by simp [simplifyTerms, hq, hps], by simp [termConstants, hqs]⟩

theorem simplify_constant_of_decided (ts : TargetSuccess) (w : ℚ) :
    ∀ a : Asset, a.constructible = true → precondOK a ts = true →
      ((∀ t ∈ a.referenced_target_ids, ∃ r, ts t = some (some r)) ∨
        (∀ s ∈ a.stopTimes, s < w)) →
      ∃ q, a.simplify ts w = some (.constant q) := by
  intro a
  induction a using assetInduction with
  | hconst c =>
    intro _ hpre _
    exact ⟨c, by simp [Asset.simplify, hpre]⟩
  | hsat t s =>
    intro _ hpre hdec
    have hts : (ts t).isSome :=
      precondOK_iff.mp hpre t (by simp [Asset.referenced_target_ids])
    cases hr : ts t with
    | none => rw [hr] at hts; simp at hts
    | some o =>
      cases o with
      | some r =>
        by_cases hle : r.1 ≤ s
        · exact ⟨1, by simp [Asset.simplify, hpre, hr, hle]⟩
        · exact ⟨0, by simp [Asset.simplify, hpre, hr, hle]⟩
      | none =>
        have hsw : s < w := by
          rcases hdec with hres | hstop
          · obtain ⟨r, hrr⟩ := hres t (by simp [Asset.referenced_target_ids])
            rw [hr] at hrr
            cases hrr
          · exact hstop s (by simp [Asset.stopTimes])
        exact ⟨0, by simp [Asset.simplify, hpre, hr, hsw]⟩
  | hagents t ids s =>
    intro _ hpre hdec
    have hts : (ts t).isSome :=
      precondOK_iff.mp hpre t (by simp [Asset.referenced_target_ids])
    cases hr : ts t with
    | none => rw [hr] at hts; simp at hts
    | some o =>
      cases o with
      | some r =>
        by_cases hle : r.1 ≤ s ∧ authorIn r.2 ids = true
        · exact ⟨1, by simp only [Asset.simplify, hpre, if_true, hr]; rw [if_pos hle]⟩
        · exact ⟨0, by simp only [Asset.simplify, hpre, if_true, hr]; rw [if_neg hle]⟩
      | none =>
        have hsw : s < w := by
          rcases hdec with hres | hstop
          · obtain ⟨r, hrr⟩ := hres t (by simp [Asset.referenced_target_ids])
            rw [hr] at hrr
            cases hrr
          · exact hstop s (by simp [Asset.stopTimes])
        exact ⟨0, by simp [Asset.simplify, hpre, hr, hsw]⟩
  | htime t s =>
    intro _ hpre hdec
    have hts : (ts t).isSome :=
      precondOK_iff.mp hpre t (by simp [Asset.referenced_target_ids])
    cases hr : ts t with
    | none => rw [hr] at hts; simp at hts
    | some o =>
      cases o with
      | some r =>
        by_cases hle : r.1 ≤ s
        · exact ⟨s - r.1, by simp [Asset.simplify, hpre, hr, hle]⟩
        · exact ⟨0, by simp [Asset.simplify, hpre, hr, hle]⟩
      | none =>
        have hsw : s < w := by
          rcases hdec with hres | hstop
          · obtain ⟨r, hrr⟩ := hres t (by simp [Asset.referenced_target_ids])
            rw [hr] at hrr
            cases hrr
          · exact hstop s (by simp [Asset.stopTimes])
        exact ⟨0, by simp [Asset.simplify, hpre, hr, hsw]⟩
  | hps t s pr =>
    intro _ hpre hdec
    have hts : (ts t).isSome :=
      precondOK_iff.mp hpre t (by simp [Asset.referenced_target_ids])
    cases hr : ts t with
    | none => rw [hr] at hts; simp at hts
    | some o =>
      cases o with
      | some r =>
        by_cases hle : r.1 ≤ s
        · exact ⟨1 - pr, by simp [Asset.simplify, hpre, hr, hle]⟩
        · exact ⟨-pr, by simp [Asset.simplify, hpre, hr, hle]⟩
      | none =>
        have hsw : s < w := by
          rcases hdec with hres | hstop
          · obtain ⟨r, hrr⟩ := hres t (by simp [Asset.referenced_target_ids])
            rw [hr] at hrr
            cases hrr
          · exact hstop s (by simp [Asset.stopTimes])
        exact ⟨-pr, by simp [Asset.simplify, hpre, hr, hsw]⟩
  | hptr t b s m =>
    intro _ hpre hdec
    have hts : (ts t).isSome :=
      precondOK_iff.mp hpre t (by simp [Asset.referenced_target_ids])
    cases hr : ts t with
    | none => rw [hr] at hts; simp at hts
    | some o =>
      cases o with
      | some r =>
        by_cases hle : r.1 ≤ s
        · exact ⟨m * (Max.max (s - r.1) 0 / (s - b) - 1),
            by simp [Asset.simplify, hpre, hr, hle]⟩
        · exact ⟨-m, by simp [Asset.simplify, hpre, hr, hle]⟩
      | none =>
        have hsw : s < w := by
          rcases hdec with hres | hstop
          · obtain ⟨r, hrr⟩ := hres t (by simp [Asset.referenced_target_ids])
            rw [hr] at hrr
            cases hrr
          · exact hstop s (by simp [Asset.stopTimes])
        exact ⟨-m, by simp [Asset.simplify, hpre, hr, hsw]⟩
  | hmax l ih =>
    intro hcon hpre hdec
    have hchild : ∀ a ∈ l, ∃ q, a.simplify ts w = some (.constant q) := by
      intro a ha
      refine ih a ha ?_ ?_ ?_
      · have := (by simpa [Asset.constructible] using hcon :
          l.isEmpty = false ∧ constructibleList l = true)
        exact constructibleList_iff.mp this.2 a ha
      · refine precondOK_iff.mpr fun t htg => precondOK_iff.mp hpre t ?_
        simp only [Asset.referenced_target_ids]
        exact mem_referencedList.mpr ⟨a, ha, htg⟩
      · rcases hdec with hres | hstop
        · exact Or.inl fun t htg => hres t (by
            simp only [Asset.referenced_target_ids]
            exact mem_referencedList.mpr ⟨a, ha, htg⟩)
        · exact Or.inr fun sp hsp => hstop sp (by
            simp only [Asset.stopTimes]
            exact mem_stopTimesList.mpr ⟨a, ha, hsp⟩)
    obtain ⟨qs, hsl, hlen⟩ := simplifyList_constants hchild
    have hlne : l.isEmpty = false :=
      ((by simpa [Asset.constructible] using hcon :
        l.isEmpty = false ∧ constructibleList l = true)).1
    have hqne : qs ≠ [] := by
      intro hq
      subst hq
      cases l with
      | nil => simp at hlne
      | cons x xs => simp at hlen
    obtain ⟨m, hm⟩ : ∃ m, pyMax qs = some m := by
      cases qs with
      | nil => exact absurd rfl hqne
      | cons x xs => exact ⟨_, rfl⟩
    exact ⟨m, by simp [Asset.simplify, hpre, hsl, allConstants_map, hm]⟩
  | hmin l ih =>
    intro hcon hpre hdec
    have hchild : ∀ a ∈ l, ∃ q, a.simplify ts w = some (.constant q) := by
      intro a ha
      refine ih a ha ?_ ?_ ?_
      · have := (by simpa [Asset.constructible] using hcon :
          l.isEmpty = false ∧ constructibleList l = true)
        exact constructibleList_iff.mp this.2 a ha
      · refine precondOK_iff.mpr fun t htg => precondOK_iff.mp hpre t ?_
        simp only [Asset.referenced_target_ids]
        exact mem_referencedList.mpr ⟨a, ha, htg⟩
      · rcases hdec with hres | hstop
        · exact Or.inl fun t htg => hres t (by
            simp only [Asset.referenced_target_ids]
            exact mem_referencedList.mpr ⟨a, ha, htg⟩)
        · exact Or.inr fun sp hsp => hstop sp (by
            simp only [Asset.stopTimes]
            exact mem_stopTimesList.mpr ⟨a, ha, hsp⟩)
    obtain ⟨qs, hsl, hlen⟩ := simplifyList_constants hchild
    have hlne : l.isEmpty = false :=
      ((by simpa [Asset.constructible] using hcon :
        l.isEmpty = false ∧ constructibleList l = true)).1
    have hqne : qs ≠ [] := by
      intro hq
      subst hq
      cases l with
      | nil => simp at hlne
      | cons x xs => simp at hlen
    obtain ⟨m, hm⟩ : ∃ m, pyMin qs = some m := by
      cases qs with
      | nil => exact absurd rfl hqne
      | cons x xs => exact ⟨_, rfl⟩
    exact ⟨m, by simp [Asset.simplify, hpre, hsl, allConstants_map, hm]⟩
  | hlin ps ih =>
    intro hcon hpre hdec
    have hchild : ∀ p ∈ ps, ∃ q, p.2.simplify ts w = some (.constant q) := by
      intro p hp
      refine ih p hp ?_ ?_ ?_
      · exact constructibleTerms_iff.mp (by simpa [Asset.constructible] using hcon) p hp
      · refine precondOK_iff.mpr fun t htg => precondOK_iff.mp hpre t ?_
        simp only [Asset.referenced_target_ids]
        exact mem_referencedTerms.mpr ⟨p, hp, htg⟩
      · rcases hdec with hres | hstop
        · exact Or.inl fun t htg => hres t (by
            simp only [Asset.referenced_target_ids]
            exact mem_referencedTerms.mpr ⟨p, hp, htg⟩)
        · exact Or.inr fun sp hsp => hstop sp (by
            simp only [Asset.stopTimes]
            exact mem_stopTimesTerms.mpr ⟨p, hp, hsp⟩)
    obtain ⟨ps', qs, hps, hqs⟩ := simplifyTerms_constants hchild
    exact ⟨pySum qs, by simp [Asset.simplify, hpre, hps, hqs]⟩



theorem foldl_max_mono {x₁ x₂ : ℚ} {l₁ l₂ : List ℚ} (hx : x₁ ≤ x₂)
    (h : List.Forall₂ (· ≤ ·) l₁ l₂) :
    l₁.foldl Max.max x₁ ≤ l₂.foldl Max.max x₂ := by
  induction h generalizing x₁ x₂ with
  | nil => exact hx
  | cons hab _ ih => exact ih (max_le_max hx hab)

theorem foldl_min_mono {x₁ x₂ : ℚ} {l₁ l₂ : List ℚ} (hx : x₁ ≤ x₂)
    (h : List.Forall₂ (· ≤ ·) l₁ l₂) :
    l₁.foldl Min.min x₁ ≤ l₂.foldl Min.min x₂ := by
  induction h generalizing x₁ x₂ with
  | nil => exact hx
  | cons hab _ ih => exact ih (min_le_min hx hab)

theorem foldl_add_mono {x₁ x₂ : ℚ} {l₁ l₂ : List ℚ} (hx : x₁ ≤ x₂)
    (h : List.Forall₂ (· ≤ ·) l₁ l₂) :
    l₁.foldl (· + ·) x₁ ≤ l₂.foldl (· + ·) x₂ := by
  induction h generalizing x₁ x₂ with
  | nil => exact hx
  | cons hab _ ih => exact ih (add_le_add hx hab)

theorem pyMaxD_mono {l₁ l₂ : List ℚ} (h : List.Forall₂ (· ≤ ·) l₁ l₂) :
    (pyMax l₁).getD 0 ≤ (pyMax l₂).getD 0 := by
  cases h with
  | nil => simp [pyMax]
  | cons hab hrest => simpa [pyMax] using foldl_max_mono hab hrest

theorem pyMinD_mono {l₁ l₂ : List ℚ} (h : List.Forall₂ (· ≤ ·) l₁ l₂) :
    (pyMin l₁).getD 0 ≤ (pyMin l₂).getD 0 := by
  cases h with
  | nil => simp [pyMin]
  | cons hab hrest => simpa [pyMin] using foldl_min_mono hab hrest

theorem pySum_mono {l₁ l₂ : List ℚ} (h : List.Forall₂ (· ≤ ·) l₁ l₂) :
    pySum l₁ ≤ pySum l₂ :=
  foldl_add_mono le_rfl h

theorem lowerList_eq_map (l : List Asset) (w : ℚ) :
    lowerList l w = l.map (Asset.lower_bound · w) := by
  induction l with
  | nil => simp [lowerList]
  | cons a rest ih => simp [lowerList, ih]

theorem upperList_eq_map (l : List Asset) (w : ℚ) :
    upperList l w = l.map (Asset.upper_bound · w) := by
  induction l with
  | nil => simp [upperList]
  | cons a rest ih => simp [upperList, ih]

theorem lowerTerms_eq_map (ps : List (ℚ × Asset)) (w : ℚ) :
    lowerTerms ps w =
      ps.map (fun p => p.1 *
        (if p.1 ≥ 0 then p.2.lower_bound w else p.2.upper_bound w)) := by
  induction ps with
  | nil => simp [lowerTerms]
  | cons p rest ih => simp [lowerTerms, ih]

theorem upperTerms_eq_map (ps : List (ℚ × Asset)) (w : ℚ) :
    upperTerms ps w =
      ps.map (fun p => p.1 *
        (if p.1 ≥ 0 then p.2.upper_bound w else p.2.lower_bound w)) := by
  induction ps with
  | nil => simp [upperTerms]
  | cons p rest ih => simp [upperTerms, ih]

theorem term_sign_le {c lb1 ub1 lb2 ub2 : ℚ} (h1 : lb1 ≤ lb2) (h2 : ub2 ≤ ub1) :
    c * (if c ≥ 0 then lb1 else ub1) ≤ c * (if c ≥ 0 then lb2 else ub2) := by
  rcases le_or_lt 0 c with hc | hc
  · rw [if_pos hc, if_pos hc]
    exact mul_le_mul_of_nonneg_left h1 hc
  · rw [if_neg (not_le.mpr hc), if_neg (not_le.mpr hc)]
    exact mul_le_mul_of_nonpos_left h2 hc.le

theorem ptr_neg_loss_le_upper {b s m w : ℚ} (hb : b < s) (hm : 0 < m) :
    -m ≤ m * (Max.max (s - w) 0 / (s - b) - 1) := by
  have h0 : 0 ≤ Max.max (s - w) 0 / (s - b) :=
    div_nonneg (le_max_right _ _) (by linarith)
  nlinarith

theorem lower_le_upper_of_constructible (w : ℚ) :
    ∀ a : Asset, a.constructible = true → a.lower_bound w ≤ a.upper_bound w := by
  intro a
  induction a using assetInduction with
  | hconst c => intro _; simp [Asset.lower_bound, Asset.upper_bound]
  | hsat t s =>
    intro _
    simp [Asset.lower_bound, Asset.upper_bound]
  | hagents t ids s =>
    intro _
    simp [Asset.lower_bound, Asset.upper_bound]
  | htime t s =>
    intro _
    simp only [Asset.lower_bound, Asset.upper_bound]
    exact le_max_right _ _
  | hps t s pr =>
    intro _
    simp only [Asset.lower_bound, Asset.upper_bound]
    linarith
  | hptr t b s m =>
    intro hcon
    have hbs : b < s ∧ 0 < m := by simpa [Asset.constructible] using hcon
    simp only [Asset.lower_bound, Asset.upper_bound]
    exact ptr_neg_loss_le_upper hbs.1 hbs.2
  | hmax l ih =>
    intro hcon
    have hcl : ∀ a ∈ l, a.constructible = true :=
      constructibleList_iff.mp
        ((by simpa [Asset.constructible] using hcon :
          l.isEmpty = false ∧ constructibleList l = true)).2
    simp only [Asset.lower_bound, Asset.upper_bound]
    refine pyMaxD_mono ?_
    rw [lowerList_eq_map, upperList_eq_map, List.forall₂_map_left_iff,
      List.forall₂_map_right_iff]
    exact List.forall₂_same.mpr fun a ha => ih a ha (hcl a ha)
  | hmin l ih =>
    intro hcon
    have hcl : ∀ a ∈ l, a.constructible = true :=
      constructibleList_iff.mp
        ((by simpa [Asset.constructible] using hcon :
          l.isEmpty = false ∧ constructibleList l = true)).2
    simp only [Asset.lower_bound, Asset.upper_bound]
    refine pyMinD_mono ?_
    rw [lowerList_eq_map, upperList_eq_map, List.forall₂_map_left_iff,
      List.forall₂_map_right_iff]
    exact List.forall₂_same.mpr fun a ha => ih a ha (hcl a ha)
  | hlin ps ih =>
    intro hcon
    have hcl : ∀ p ∈ ps, p.2.constructible = true :=
      constructibleTerms_iff.mp (by simpa [Asset.constructible] using hcon)
    simp only [Asset.lower_bound, Asset.upper_bound]
    refine pySum_mono ?_
    rw [lowerTerms_eq_map, upperTerms_eq_map, List.forall₂_map_left_iff,
      List.forall₂_map_right_iff]
    exact List.forall₂_same.mpr fun p hp =>
      term_sign_le (ih p hp (hcl p hp)) (ih p hp (hcl p hp))



theorem forall₂_mem_imp {α β : Type} {R S : α → β → Prop} {l : List α}
    {l' : List β} (h : List.Forall₂ R l l')
    (himp : ∀ a ∈ l, ∀ b, R a b → S a b) : List.Forall₂ S l l' := by
  induction h with
  | nil => exact List.Forall₂.nil
  | cons hab hrest ih =>
    exact List.Forall₂.cons (himp _ (List.mem_cons_self _ _) _ hab)
      (ih fun a ha b hr => himp a (List.mem_cons_of_mem _ ha) b hr)

theorem forall₂_swap {α β : Type} {R : α → β → Prop} {l : List α} {l' : List β}
    (h : List.Forall₂ R l l') : List.Forall₂ (fun b a => R a b) l' l := by
  induction h with
  | nil => exact List.Forall₂.nil
  | cons hab _ ih => exact List.Forall₂.cons hab ih

theorem forall₂_compose {α β γ : Type} {R : α → β → Prop} {S : β → γ → Prop}
    {T : α → γ → Prop} {l₁ : List α} {l₂ : List β} {l₃ : List γ}
    (h₁ : List.Forall₂ R l₁ l₂) (h₂ : List.Forall₂ S l₂ l₃)
    (hT : ∀ a b c, R a b → S b c → T a c) : List.Forall₂ T l₁ l₃ := by
  induction h₁ generalizing l₃ with
  | nil => cases h₂; exact List.Forall₂.nil
  | cons hab _ ih =>
    cases h₂ with
    | cons hbc hrest => exact List.Forall₂.cons (hT _ _ _ hab hbc) (ih hrest)

theorem allConstants_some_iff {l : List Asset} {qs : List ℚ} :
    allConstants l = some qs ↔
      List.Forall₂ (fun a q => a = Asset.constant q) l qs := by
  induction l generalizing qs with
  | nil =>
    constructor
    · intro h
      simp [allConstants] at h
      subst h
      exact List.Forall₂.nil
    · intro h
      cases h
      simp [allConstants]
  | cons a rest ih =>
    cases a with
    | constant c =>
      constructor
      · intro h
        simp only [allConstants, Option.map_eq_some'] at h
        obtain ⟨qs', hqs', hq⟩ := h
        subst hq
        exact List.Forall₂.cons rfl (ih.mp hqs')
      · intro h
        cases h with
        | cons hq hrest =>
          simp only [allConstants, Option.map_eq_some']
          cases hq
          exact ⟨_, ih.mpr hrest, rfl⟩
    | satisfiedBy t s =>
      simp only [allConstants]
      constructor
      · intro h; cases h
      · intro h; cases h with | cons hq _ => cases hq
    | agentsSatisfyBy t ids s =>
      simp only [allConstants]
      constructor
      · intro h; cases h
      · intro h; cases h with | cons hq _ => cases hq
    | timeRemaining t s =>
      simp only [allConstants]
      constructor
      · intro h; cases h
      · intro h; cases h with | cons hq _ => cases hq
    | max l2 =>
      simp only [allConstants]
      constructor
      · intro h; cases h
      · intro h; cases h with | cons hq _ => cases hq
    | min l2 =>
      simp only [allConstants]
      constructor
      · intro h; cases h
      · intro h; cases h with | cons hq _ => cases hq
    | linearCombination ps2 =>
      simp only [allConstants]
      constructor
      · intro h; cases h
      · intro h; cases h with | cons hq _ => cases hq
    | priceySatisfiedBy t s pr =>
      simp only [allConstants]
      constructor
      · intro h; cases h
      · intro h; cases h with | cons hq _ => cases hq
    | priceyTimeRemaining t b s m =>
      simp only [allConstants]
      constructor
      · intro h; cases h
      · intro h; cases h with | cons hq _ => cases hq

theorem termConstants_some_iff {ps : List (ℚ × Asset)} {qs : List ℚ} :
    termConstants ps = some qs ↔
      List.Forall₂ (fun p q => ∃ v, p.2 = Asset.constant v ∧ q = p.1 * v) ps qs := by
  induction ps generalizing qs with
  | nil =>
    constructor
    · intro h
      simp [termConstants] at h
      subst h
      exact List.Forall₂.nil
    · intro h
      cases h
      simp [termConstants]
  | cons p rest ih =>
    obtain ⟨c, g⟩ := p
    cases g with
    | constant v =>
      constructor
      · intro h
        simp only [termConstants, Option.map_eq_some'] at h
        obtain ⟨qs', hqs', hq⟩ := h
        subst hq
        exact List.Forall₂.cons ⟨v, rfl, rfl⟩ (ih.mp hqs')
      · intro h
        cases h with
        | cons hq hrest =>
          obtain ⟨v', hv', hq'⟩ := hq
          simp only at hv'
          cases hv'
          simp only at hq'
          subst hq'
          simp only [termConstants, Option.map_eq_some']
          exact ⟨_, ih.mpr hrest, rfl⟩
    | satisfiedBy t s =>
      simp only [termConstants]
      constructor
      · intro h; cases h
      · intro h
        cases h with | cons hq _ => obtain ⟨v, hv, _⟩ := hq; cases hv
    | agentsSatisfyBy t ids s =>
      simp only [termConstants]
      constructor
      · intro h; cases h
      · intro h
        cases h with | cons hq _ => obtain ⟨v, hv, _⟩ := hq; cases hv
    | timeRemaining t s =>
      simp only [termConstants]
      constructor
      · intro h; cases h
      · intro h
        cases h with | cons hq _ => obtain ⟨v, hv, _⟩ := hq; cases hv
    | max l2 =>
      simp only [termConstants]
      constructor
      · intro h; cases h
      · intro h
        cases h with | cons hq _ => obtain ⟨v, hv, _⟩ := hq; cases hv
    | min l2 =>
      simp only [termConstants]
      constructor
      · intro h; cases h
      · intro h
        cases h with | cons hq _ => obtain ⟨v, hv, _⟩ := hq; cases hv
    | linearCombination ps2 =>
      simp only [termConstants]
      constructor
      · intro h; cases h
      · intro h
        cases h with | cons hq _ => obtain ⟨v, hv, _⟩ := hq; cases hv
    | priceySatisfiedBy t s pr =>
      simp only [termConstants]
      constructor
      · intro h; cases h
      · intro h
        cases h with | cons hq _ => obtain ⟨v, hv, _⟩ := hq; cases hv
    | priceyTimeRemaining t b s m =>
      simp only [termConstants]
      constructor
      · intro h; cases h
      · intro h
        cases h with | cons hq _ => obtain ⟨v, hv, _⟩ := hq; cases hv



theorem simplify_bounds_aux (ts : TargetSuccess) (w : ℚ)
    (hcons : consistentWith ts w) :
    ∀ a : Asset, a.constructible = true → ∀ a' : Asset,
      a.simplify ts w = some a' →
      a.lower_bound w ≤ a'.lower_bound w ∧ a'.upper_bound w ≤ a.upper_bound w := by
  intro a
  induction a using assetInduction with
  | hconst c =>
    intro _ a' h
    simp only [Asset.simplify] at h
    split at h
    · cases h; exact ⟨le_refl _, le_refl _⟩
    · cases h
  | hsat t s =>
    intro _ a' h
    simp only [Asset.simplify] at h
    by_cases hpre : precondOK (.satisfiedBy t s) ts = true
    · rw [if_pos hpre] at h
      cases hr : ts t with
      | none => simp only [hr] at h; exact Option.noConfusion h
      | some o =>
        cases o with
        | some r =>
          simp only [hr] at h
          by_cases hle : r.1 ≤ s
          · rw [if_pos hle] at h
            cases h
            simp only [Asset.lower_bound, Asset.upper_bound]
            norm_num
          · rw [if_neg hle] at h
            cases h
            simp only [Asset.lower_bound, Asset.upper_bound]
            norm_num
        | none =>
          simp only [hr] at h
          by_cases hsw : s < w
          · rw [if_pos hsw] at h
            cases h
            simp only [Asset.lower_bound, Asset.upper_bound]
            norm_num
          · rw [if_neg hsw] at h
            cases h
            exact ⟨le_refl _, le_refl _⟩
    · rw [if_neg hpre] at h
      cases h
  | hagents t ids s =>
    intro _ a' h
    simp only [Asset.simplify] at h
    by_cases hpre : precondOK (.agentsSatisfyBy t ids s) ts = true
    · rw [if_pos hpre] at h
      cases hr : ts t with
      | none => simp only [hr] at h; exact Option.noConfusion h
      | some o =>
        cases o with
        | some r =>
          simp only [hr] at h
          by_cases hc : r.1 ≤ s ∧ authorIn r.2 ids = true
          · rw [if_pos hc] at h
            cases h
            simp only [Asset.lower_bound, Asset.upper_bound]
            norm_num
          · rw [if_neg hc] at h
            cases h
            simp only [Asset.lower_bound, Asset.upper_bound]
            norm_num
        | none =>
          simp only [hr] at h
          by_cases hsw : s < w
          · rw [if_pos hsw] at h
            cases h
            simp only [Asset.lower_bound, Asset.upper_bound]
            norm_num
          · rw [if_neg hsw] at h
            cases h
            exact ⟨le_refl _, le_refl _⟩
    · rw [if_neg hpre] at h
      cases h
  | htime t s =>
    intro _ a' h
    simp only [Asset.simplify] at h
    by_cases hpre : precondOK (.timeRemaining t s) ts = true
    · rw [if_pos hpre] at h
      cases hr : ts t with
      | none => simp only [hr] at h; exact Option.noConfusion h
      | some o =>
        cases o with
        | some r =>
          simp only [hr] at h
          have hwr : w ≤ r.1 := hcons t r hr
          by_cases hle : r.1 ≤ s
          · rw [if_pos hle] at h
            cases h
            simp only [Asset.lower_bound, Asset.upper_bound]
            constructor
            · linarith
            · exact le_trans (by linarith) (le_max_left _ _)
          · rw [if_neg hle] at h
            cases h
            simp only [Asset.lower_bound, Asset.upper_bound]
            exact ⟨le_refl _, le_max_right _ _⟩
        | none =>
          simp only [hr] at h
          by_cases hsw : s < w
          · rw [if_pos hsw] at h
            cases h
            simp only [Asset.lower_bound, Asset.upper_bound]
            exact ⟨le_refl _, le_max_right _ _⟩
          · rw [if_neg hsw] at h
            cases h
            exact ⟨le_refl _, le_refl _⟩
    · rw [if_neg hpre] at h
      cases h
  | hps t s pr =>
    intro _ a' h
    simp only [Asset.simplify] at h
    by_cases hpre : precondOK (.priceySatisfiedBy t s pr) ts = true
    · rw [if_pos hpre] at h
      cases hr : ts t with
      | none => simp only [hr] at h; exact Option.noConfusion h
      | some o =>
        cases o with
        | some r =>
          simp only [hr] at h
          by_cases hle : r.1 ≤ s
          · rw [if_pos hle] at h
            cases h
            simp only [Asset.lower_bound, Asset.upper_bound]
            exact ⟨by linarith, le_refl _⟩
          · rw [if_neg hle] at h
            cases h
            simp only [Asset.lower_bound, Asset.upper_bound]
            exact ⟨le_refl _, by linarith⟩
        | none =>
          simp only [hr] at h
          by_cases hsw : s < w
          · rw [if_pos hsw] at h
            cases h
            simp only [Asset.lower_bound, Asset.upper_bound]
            exact ⟨le_refl _, by linarith⟩
          · rw [if_neg hsw] at h
            cases h
            exact ⟨le_refl _, le_refl _⟩
    · rw [if_neg hpre] at h
      cases h
  | hptr t b s m =>
    intro hcon a' h
    have hbs : b < s ∧ 0 < m := by simpa [Asset.constructible] using hcon
    simp only [Asset.simplify] at h
    by_cases hpre : precondOK (.priceyTimeRemaining t b s m) ts = true
    · rw [if_pos hpre] at h
      cases hr : ts t with
      | none => simp only [hr] at h; exact Option.noConfusion h
      | some o =>
        cases o with
        | some r =>
          simp only [hr] at h
          have hwr : w ≤ r.1 := hcons t r hr
          by_cases hle : r.1 ≤ s
          · rw [if_pos hle] at h
            cases h
            simp only [Asset.lower_bound, Asset.upper_bound]
            constructor
            · exact ptr_neg_loss_le_upper hbs.1 hbs.2
            · have hd : (0:ℚ) < s - b := by linarith
              have hxy : Max.max (s - r.1) 0 ≤ Max.max (s - w) 0 :=
                max_le_max (by linarith) le_rfl
              have hdiv := (div_le_div_iff_of_pos_right hd).mpr hxy
              exact mul_le_mul_of_nonneg_left (by linarith) hbs.2.le
          · rw [if_neg hle] at h
            cases h
            simp only [Asset.lower_bound, Asset.upper_bound]
            exact ⟨le_refl _, ptr_neg_loss_le_upper hbs.1 hbs.2⟩
        | none =>
          simp only [hr] at h
          by_cases hsw : s < w
          · rw [if_pos hsw] at h
            cases h
            simp only [Asset.lower_bound, Asset.upper_bound]
            exact ⟨le_refl _, ptr_neg_loss_le_upper hbs.1 hbs.2⟩
          · rw [if_neg hsw] at h
            cases h
            exact ⟨le_refl _, le_refl _⟩
    · rw [if_neg hpre] at h
      cases h
  | hmax l ih =>
    intro hcon a' h
    have hcl : ∀ a ∈ l, a.constructible = true :=
      constructibleList_iff.mp
        ((by simpa [Asset.constructible] using hcon :
          l.isEmpty = false ∧ constructibleList l = true)).2
    simp only [Asset.simplify] at h
    by_cases hpre : precondOK (.max l) ts = true
    · rw [if_pos hpre] at h
      cases hsl : simplifyList l ts w with
      | none => simp only [hsl] at h; exact Option.noConfusion h
      | some simplified =>
        simp only [hsl] at h
        have hbnds : List.Forall₂ (fun a b =>
            a.lower_bound w ≤ b.lower_bound w ∧
              b.upper_bound w ≤ a.upper_bound w) l simplified :=
          forall₂_mem_imp (simplifyList_some_iff.mp hsl)
            (fun a ha b hr => ih a ha (hcl a ha) b hr)
        cases hac : allConstants simplified with
        | some constants =>
          simp only [hac] at h
          cases hpm : pyMax constants with
          | some mq =>
            simp only [hpm, Option.some.injEq] at h
            subst h
            have hlq : List.Forall₂ (fun a q =>
                a.lower_bound w ≤ q ∧ q ≤ a.upper_bound w) l constants :=
              forall₂_compose hbnds (allConstants_some_iff.mp hac)
                (fun a bb q hab hbq => by
                  subst hbq
                  simpa [Asset.lower_bound, Asset.upper_bound] using hab)
            constructor
            · simp only [Asset.lower_bound]
              have h1 : List.Forall₂ (· ≤ ·) (lowerList l w) constants := by
                rw [lowerList_eq_map, List.forall₂_map_left_iff]
                exact hlq.imp fun _ _ h => h.1
              simpa [hpm] using pyMaxD_mono h1
            · simp only [Asset.upper_bound]
              have h2 : List.Forall₂ (· ≤ ·) constants (upperList l w) := by
                rw [upperList_eq_map, List.forall₂_map_right_iff]
                exact forall₂_swap (hlq.imp fun _ _ h => h.2)
              simpa [hpm] using pyMaxD_mono h2
          | none => simp only [hpm] at h; exact Option.noConfusion h
        | none =>
          simp only [hac, Option.some.injEq] at h
          subst h
          constructor
          · simp only [Asset.lower_bound]
            refine pyMaxD_mono ?_
            rw [lowerList_eq_map, lowerList_eq_map, List.forall₂_map_left_iff,
              List.forall₂_map_right_iff]
            exact hbnds.imp fun _ _ h => h.1
          · simp only [Asset.upper_bound]
            refine pyMaxD_mono ?_
            rw [upperList_eq_map, upperList_eq_map, List.forall₂_map_left_iff,
              List.forall₂_map_right_iff]
            exact forall₂_swap (hbnds.imp fun _ _ h => h.2)
    · rw [if_neg hpre] at h
      cases h
  | hmin l ih =>
    intro hcon a' h
    have hcl : ∀ a ∈ l, a.constructible = true :=
      constructibleList_iff.mp
        ((by simpa [Asset.constructible] using hcon :
          l.isEmpty = false ∧ constructibleList l = true)).2
    simp only [Asset.simplify] at h
    by_cases hpre : precondOK (.min l) ts = true
    · rw [if_pos hpre] at h
      cases hsl : simplifyList l ts w with
      | none => simp only [hsl] at h; exact Option.noConfusion h
      | some simplified =>
        simp only [hsl] at h
        have hbnds : List.Forall₂ (fun a b =>
            a.lower_bound w ≤ b.lower_bound w ∧
              b.upper_bound w ≤ a.upper_bound w) l simplified :=
          forall₂_mem_imp (simplifyList_some_iff.mp hsl)
            (fun a ha b hr => ih a ha (hcl a ha) b hr)
        cases hac : allConstants simplified with
        | some constants =>
          simp only [hac] at h
          cases hpm : pyMin constants with
          | some mq =>
            simp only [hpm, Option.some.injEq] at h
            subst h
            have hlq : List.Forall₂ (fun a q =>
                a.lower_bound w ≤ q ∧ q ≤ a.upper_bound w) l constants :=
              forall₂_compose hbnds (allConstants_some_iff.mp hac)
                (fun a bb q hab hbq => by
                  subst hbq
                  simpa [Asset.lower_bound, Asset.upper_bound] using hab)
            constructor
            · simp only [Asset.lower_bound]
              have h1 : List.Forall₂ (· ≤ ·) (lowerList l w) constants := by
                rw [lowerList_eq_map, List.forall₂_map_left_iff]
                exact hlq.imp fun _ _ h => h.1
              simpa [hpm] using pyMinD_mono h1
            · simp only [Asset.upper_bound]
              have h2 : List.Forall₂ (· ≤ ·) constants (upperList l w) := by
                rw [upperList_eq_map, List.forall₂_map_right_iff]
                exact forall₂_swap (hlq.imp fun _ _ h => h.2)
              simpa [hpm] using pyMinD_mono h2
          | none => simp only [hpm] at h; exact Option.noConfusion h
        | none =>
          simp only [hac, Option.some.injEq] at h
          subst h
          constructor
          · simp only [Asset.lower_bound]
            refine pyMinD_mono ?_
            rw [lowerList_eq_map, lowerList_eq_map, List.forall₂_map_left_iff,
              List.forall₂_map_right_iff]
            exact hbnds.imp fun _ _ h => h.1
          · simp only [Asset.upper_bound]
            refine pyMinD_mono ?_
            rw [upperList_eq_map, upperList_eq_map, List.forall₂_map_left_iff,
              List.forall₂_map_right_iff]
            exact forall₂_swap (hbnds.imp fun _ _ h => h.2)
    · rw [if_neg hpre] at h
      cases h
  | hlin ps ih =>
    intro hcon a' h
    have hcl : ∀ p ∈ ps, p.2.constructible = true :=
      constructibleTerms_iff.mp (by simpa [Asset.constructible] using hcon)
    simp only [Asset.simplify] at h
    by_cases hpre : precondOK (.linearCombination ps) ts = true
    · rw [if_pos hpre] at h
      cases hsl : simplifyTerms ps ts w with
      | none => simp only [hsl] at h; exact Option.noConfusion h
      | some simplified =>
        simp only [hsl] at h
        have hbnds : List.Forall₂ (fun p q => p.1 = q.1 ∧
            (p.2.lower_bound w ≤ q.2.lower_bound w ∧
              q.2.upper_bound w ≤ p.2.upper_bound w)) ps simplified :=
          forall₂_mem_imp (simplifyTerms_some_iff.mp hsl)
            (fun p hp q hr => ⟨hr.1, ih p hp (hcl p hp) q.2 hr.2⟩)
        cases hac : termConstants simplified with
        | some qs =>
          simp only [hac, Option.some.injEq] at h
          subst h
          have hlq : List.Forall₂ (fun p val => ∃ v,
              p.2.lower_bound w ≤ v ∧ v ≤ p.2.upper_bound w ∧
                val = p.1 * v) ps qs :=
            forall₂_compose hbnds (termConstants_some_iff.mp hac)
              (fun p q val hpq hqv => by
                obtain ⟨v, hv, hval⟩ := hqv
                refine ⟨v, ?_, ?_, ?_⟩
                · have := hpq.2.1
                  rw [hv] at this
                  simpa [Asset.lower_bound] using this
                · have := hpq.2.2
                  rw [hv] at this
                  simpa [Asset.upper_bound] using this
                · rw [hval, hpq.1])
          constructor
          · simp only [Asset.lower_bound]
            refine pySum_mono ?_
            rw [lowerTerms_eq_map, List.forall₂_map_left_iff]
            refine hlq.imp fun _ _ hex => ?_
            obtain ⟨v, hv1, hv2, hval⟩ := hex
            subst hval
            simpa using term_sign_le (c := _) hv1 hv2
          · simp only [Asset.upper_bound]
            refine pySum_mono ?_
            rw [upperTerms_eq_map, List.forall₂_map_right_iff]
            refine forall₂_swap (hlq.imp fun _ _ hex => ?_)
            obtain ⟨v, hv1, hv2, hval⟩ := hex
            subst hval
            simpa using term_sign_le (c := _) hv2 hv1
        | none =>
          simp only [hac, Option.some.injEq] at h
          subst h
          constructor
          · simp only [Asset.lower_bound]
            refine pySum_mono ?_
            rw [lowerTerms_eq_map, lowerTerms_eq_map, List.forall₂_map_left_iff,
              List.forall₂_map_right_iff]
            refine hbnds.imp fun _ _ hpq => ?_
            rw [← hpq.1]
            exact term_sign_le hpq.2.1 hpq.2.2
          · simp only [Asset.upper_bound]
            refine pySum_mono ?_
            rw [upperTerms_eq_map, upperTerms_eq_map, List.forall₂_map_left_iff,
              List.forall₂_map_right_iff]
            refine forall₂_swap (hbnds.imp fun _ _ hpq => ?_)
            rw [← hpq.1]
            exact term_sign_le hpq.2.2 hpq.2.1
    · rw [if_neg hpre] at h
      cases h



/-- With watermark 0 the sample snapshot is consistent: its only resolution fact is
timed at 7 ≥ 0. -/
theorem sampleSnapshot_consistent : consistentWith sampleSnapshot 0 := by
  intro t r h
  by_cases ht : t = "t1"
  · rw [sampleSnapshot, if_pos ht] at h
    simp only [Option.some.injEq] at h
    rw [← h]
    norm_num
  · rw [sampleSnapshot, if_neg ht] at h
    cases h

/-- C1: the claim that `decode(encode(c))` succeeds and returns `c` for every
claim producible by direct construction is violated by the code.  For the
constructible claim `SatisfiedBy("(", 10)` the encoder emits
`SatisfiedByAsset("(",10)`, and the decoder's parenthesis scan — which does not
skip parentheses inside quoted strings — runs off the end of the input and fails
with "Unmatched parenthesis" instead of returning the claim, contradicting the
round-trip promise in the source's own `str_to_asset` docstring. -/
theorem C1_roundtrip_broken_by_paren_target :
    (Asset.satisfiedBy "(" 10).constructible = true ∧
      str_to_asset (asset_to_str (.satisfiedBy "(" 10)) =
        .error "Unmatched parenthesis" :=
  ⟨rfl, rfl⟩

/-- C2: the claim that `decode` succeeds on every output of `encode` (with
`encode(decode(s)) = s`) is violated by the code.  For the constructible claim
`SatisfiedBy(")", 10)` the encoder emits `SatisfiedByAsset(")",10)`; the decoder's
parenthesis scan stops at the quoted `)` of the target, so the argument list
degenerates to a lone quote and JSON string parsing fails — `decode(s)` does not
succeed, contradicting the canonical-string promise in the source's own
`str_to_asset` docstring. -/
theorem C2_decode_fails_on_encoder_output :
    (Asset.satisfiedBy ")" 10).constructible = true ∧
      str_to_asset (asset_to_str (.satisfiedBy ")" 10)) =
        .error "Unterminated string starting at" :=
  ⟨rfl, rfl⟩

/-- C3: bound soundness.  For every constructible claim, every watermark, and
every snapshot consistent with that watermark, if one `simplify` call fully
collapses the claim to a constant — which is what happens exactly when the
snapshot decides every referenced target — the constant lies in the a-priori
interval `[lower_bound, upper_bound]` computed at that watermark. -/
theorem C3_bound_soundness (a : Asset) (ts : TargetSuccess) (w q : ℚ)
    (hcon : a.constructible = true) (hcons : consistentWith ts w)
    (h : a.simplify ts w = some (.constant q)) :
    a.lower_bound w ≤ q ∧ q ≤ a.upper_bound w := by
  have := simplify_bounds_aux ts w hcons a hcon (.constant q) h
  simpa [Asset.lower_bound, Asset.upper_bound] using this

/-- Witness for C3 at `SatisfiedBy("t1", 10)` with the sample snapshot and
watermark 0: the collapse value 1 lies between the bounds 0 and 1. -/
theorem C3_bound_soundness_witness :
    (Asset.satisfiedBy "t1" 10).lower_bound 0 ≤ 1 ∧
      (1:ℚ) ≤ (Asset.satisfiedBy "t1" 10).upper_bound 0 :=
  C3_bound_soundness (.satisfiedBy "t1" 10) sampleSnapshot 0 1 rfl
    sampleSnapshot_consistent rfl

/-- C4: monotonic shrinkage.  Whenever `simplify` returns (so in particular under
its documented precondition that every referenced target is a key of the
snapshot), the referenced targets of the result are a subset of those of the
input. -/
theorem C4_referenced_targets_shrink (a a' : Asset) (ts : TargetSuccess) (w : ℚ)
    (hpre : precondOK a ts = true) (h : a.simplify ts w = some a') :
    a'.referenced_target_ids ⊆ a.referenced_target_ids :=
  refs_simplify_subset ts w a a' h

/-- Witness for C4 at `SatisfiedBy("t1", 10)` with the sample snapshot. -/
theorem C4_referenced_targets_shrink_witness :
    (Asset.constant 1).referenced_target_ids ⊆
      (Asset.satisfiedBy "t1" 10).referenced_target_ids :=
  C4_referenced_targets_shrink (.satisfiedBy "t1" 10) (.constant 1)
    sampleSnapshot 0 rfl rfl

/-- C5: termination.  For a constructible claim, under the simplify precondition,
if the snapshot resolves every referenced target, or the watermark is strictly
past every stop time occurring in the claim, a single `simplify` call returns a
`ConstantAsset`. -/
theorem C5_termination (a : Asset) (ts : TargetSuccess) (w : ℚ)
    (hcon : a.constructible = true) (hpre : precondOK a ts = true)
    (hdec : (∀ t ∈ a.referenced_target_ids, ∃ r, ts t = some (some r)) ∨
      (∀ s ∈ a.stopTimes, s < w)) :
    ∃ q, a.simplify ts w = some (.constant q) :=
  simplify_constant_of_decided ts w a hcon hpre hdec

/-- Witness for C5 at `SatisfiedBy("t1", 10)` with the sample snapshot, which
resolves the only referenced target. -/
theorem C5_termination_witness :
    ∃ q, (Asset.satisfiedBy "t1" 10).simplify sampleSnapshot 0 =
      some (.constant q) :=
  C5_termination (.satisfiedBy "t1" 10) sampleSnapshot 0 rfl rfl
    (Or.inl (by
      intro t ht
      simp only [Asset.referenced_target_ids, List.mem_singleton] at ht
      subst ht
      exact ⟨(7, some "alice"), rfl⟩))

/-- C6 counterexample: the concrete scenario in the spec uses the abstract variant
name `Constant`, but the code's canonical grammar uses the Python class name: the
encoder renders `Constant(1/2)` as the string "ConstantAsset(1/2)", and the
decoder rejects "Constant(1/2)" as an unknown variant prefix rather than
returning the claim. -/
theorem C6_counterexample :
    ¬ (asset_to_str (.constant (1/2)) = "Constant(1/2)" ∧
        str_to_asset "Constant(1/2)" = .ok (.constant (1/2))) := by
  intro h
  have h2 := h.2
  rw [show str_to_asset "Constant(1/2)" =
    .error "Unknown asset type in string: Constant(1/2)" from rfl] at h2
  cases h2

/-- C6 as amended: with the variant name the code actually uses,
`encode(Constant(1/2))` is exactly "ConstantAsset(1/2)" and decoding
"ConstantAsset(1/2)" returns `Constant(1/2)`. -/
theorem C6_constant_half_codec :
    asset_to_str (.constant (1/2)) = "ConstantAsset(1/2)" ∧
      str_to_asset "ConstantAsset(1/2)" = .ok (.constant (1/2)) := by
  constructor
  · rw [show ((1:ℚ)/2 : ℚ) = Rat.mk' 1 2 (by decide) (by decide) by
      rw [Rat.mk'_eq_divInt, Rat.divInt_eq_div]; norm_num]
    rfl
  · rw [show str_to_asset "ConstantAsset(1/2)" =
      .ok (.constant (((1:ℤ):ℚ) / ((2:ℤ):ℚ))) from rfl]
    norm_num

/-- C7: for every constructible claim and every watermark,
`lower_bound ≤ upper_bound`. -/
theorem C7_lower_le_upper (a : Asset) (w : ℚ) (hcon : a.constructible = true) :
    a.lower_bound w ≤ a.upper_bound w :=
  lower_le_upper_of_constructible w a hcon

/-- Witness for C7 at `PriceyTimeRemaining("t1", 2, 10, 4)` and watermark 0. -/
theorem C7_lower_le_upper_witness :
    (Asset.priceyTimeRemaining "t1" 2 10 4).lower_bound 0 ≤
      (Asset.priceyTimeRemaining "t1" 2 10 4).upper_bound 0 :=
  C7_lower_le_upper (.priceyTimeRemaining "t1" 2 10 4) 0 rfl

/-- C8: bound consistency under simplification.  For a constructible claim and a
snapshot consistent with the watermark, the interval of the simplified claim is
contained in the interval of the original. -/
theorem C8_bounds_tighten (a a' : Asset) (ts : TargetSuccess) (w : ℚ)
    (hcon : a.constructible = true) (hcons : consistentWith ts w)
    (h : a.simplify ts w = some a') :
    a.lower_bound w ≤ a'.lower_bound w ∧ a'.upper_bound w ≤ a.upper_bound w :=
  simplify_bounds_aux ts w hcons a hcon a' h

/-- Witness for C8 at `SatisfiedBy("t1", 10)` with the sample snapshot, which
simplifies it to `Constant(1)`. -/
theorem C8_bounds_tighten_witness :
    (Asset.satisfiedBy "t1" 10).lower_bound 0 ≤ (Asset.constant 1).lower_bound 0 ∧
      (Asset.constant 1).upper_bound 0 ≤ (Asset.satisfiedBy "t1" 10).upper_bound 0 :=
  C8_bounds_tighten (.satisfiedBy "t1" 10) (.constant 1) sampleSnapshot 0 rfl
    sampleSnapshot_consistent rfl

/-- C9: the claim that `decode` validates each variant's argument arity is
violated by the code: `SatisfiedByAsset("t",5,7)` has one argument too many, yet
the decoder silently ignores the extra argument and returns `SatisfiedBy("t", 5)`
instead of failing — and re-encoding that result does not reproduce the input,
contradicting the `str_to_asset` docstring. -/
theorem C9_arity_not_validated :
    str_to_asset "SatisfiedByAsset(\"t\",5,7)" = .ok (.satisfiedBy "t" 5) ∧
      asset_to_str (.satisfiedBy "t" 5) = "SatisfiedByAsset(\"t\",5)" :=
  ⟨rfl, rfl⟩

/-- C10: a `LinearCombinationAsset` with an empty terms list is constructible
(unlike the empty `MaxAsset`/`MinAsset`), references no targets, simplifies to
`Constant(0)` for every snapshot and watermark, and has 0 as both bounds for
every watermark. -/
theorem C10_empty_linear_combination :
    (Asset.linearCombination []).constructible = true ∧
      (Asset.max []).constructible = false ∧
      (Asset.min []).constructible = false ∧
      (Asset.linearCombination []).referenced_target_ids = [] ∧
      (∀ (ts : TargetSuccess) (w : ℚ),
        (Asset.linearCombination []).simplify ts w = some (.constant 0)) ∧
      (∀ w : ℚ, (Asset.linearCombination []).lower_bound w = 0) ∧
      (∀ w : ℚ, (Asset.linearCombination []).upper_bound w = 0) :=
  ⟨rfl, rfl, rfl, rfl, fun _ _ => rfl, fun _ => rfl, fun _ => rfl⟩

end Agora
